import Mathlib

/-!
Verification of the Lights-Out solver core: a shallow embedding of
`computeMatrixInfo` and `computeSolution` (GF(2) Gaussian elimination,
Gauss-Jordan elimination with back-substitution, null-space basis
extraction and minimum-weight search), together with theorems settling
the specified properties.

GF(2) entries are modelled as `ZMod 2` (the source stores 0/1 JavaScript
numbers and combines them with `^=`, which on 0/1 values is addition in
`ZMod 2`); matrices are total functions `Nat → Nat → ZMod 2`, with the
relevant region being the first `n` rows and `n+1` columns.
-/

set_option maxHeartbeats 1000000
set_option maxRecDepth 100000

abbrev GF2 := ZMod 2

/-- A node as the solver sees it: its opaque id and its current on/off state. -/
structure SNode where
  id : String
  «on» : Bool
deriving DecidableEq

instance : Inhabited SNode := ⟨⟨"", false⟩⟩

/-- An edge: an unordered pair of node ids, stored as source/target. -/
structure SEdge where
  source : String
  target : String
deriving DecidableEq

/-- The solver's algorithm mode: return any solution, or the minimum-weight one. -/
inductive AlgorithmType where
  | any
  | minWeight
deriving DecidableEq

/-- The record `computeSolution` returns. -/
structure Solution where
  hasSolution : Bool
  nodesToPress : List String
  message : String
deriving DecidableEq

/-- A GF(2) matrix as a total function on indices. -/
abbrev Mat := Nat → Nat → GF2

/-- The node-id-to-index map: `new Map(ids.map((id, i) => [id, i]))`.
JavaScript `Map` keeps the last insertion for a repeated key, so this
returns the index of the last occurrence of `s` in `ids`. -/
def idxMap (ids : List String) (s : String) : Option Nat :=
  (List.range ids.length).foldl
    (fun acc i => if ids.getD i "" = s then some i else acc) none

/-- Processing one edge: when both endpoints resolve to indices, set the two
symmetric entries to 1 (the source sets, it does not toggle). -/
def applyEdge (idx : String → Option Nat) (M : Mat) (e : SEdge) : Mat :=
  match idx e.source, idx e.target with
  | some u, some v =>
      fun i k => if (i = u ∧ k = v) ∨ (i = v ∧ k = u) then 1 else M i k
  | _, _ => M

/-- The identity start matrix of `computeMatrixInfo` (n×n region). -/
def baseA (nodes : List SNode) : Mat := fun i k =>
  if i < nodes.length ∧ k = i then 1 else 0

/-- The start of the augmented matrix of `computeSolution`: identity plus the
target column `M[i][N] = nodes[i].on ? 0 : 1`. -/
def baseAug (nodes : List SNode) : Mat := fun i k =>
  if i < nodes.length ∧ k = i then 1
  else if i < nodes.length ∧ k = nodes.length then
    (if (nodes.getD i default).«on» then 0 else 1)
  else 0

/-- The influence matrix `A = I + Adjacency` built by `computeMatrixInfo`. -/
def buildA (nodes : List SNode) (edges : List SEdge) : Mat :=
  edges.foldl (applyEdge (idxMap (nodes.map SNode.id))) (baseA nodes)

/-- The augmented matrix `[A | b]` built by `computeSolution`. -/
def buildAug (nodes : List SNode) (edges : List SEdge) : Mat :=
  edges.foldl (applyEdge (idxMap (nodes.map SNode.id))) (baseAug nodes)

/-- The target vector: `b[i] = nodes[i].on ? 0 : 1`. -/
def targetVec (nodes : List SNode) : Nat → GF2 := fun i =>
  if (nodes.getD i default).«on» then 0 else 1

/-- The search loop of `findPivot`, structured on the remaining fuel `N - p`. -/
def findPivotAux (M : Mat) (j p : Nat) : Nat → Nat
  | 0 => p
  | fuel + 1 => if M p j = 0 then findPivotAux M j (p + 1) fuel else p

/-- `while (pivotRow < N && M[pivotRow][j] === 0) pivotRow++`: the first row
index in `[p, N)` whose entry in column `j` is nonzero, or `N` if none. -/
def findPivot (M : Mat) (N j p : Nat) : Nat :=
  findPivotAux M j p (N - p)

/-- Swapping two rows. -/
def swapRows (M : Mat) (a b : Nat) : Mat := fun i =>
  if i = a then M b else if i = b then M a else M i

/-- The Gauss-Jordan elimination step on rows other than the pivot row `r`:
every row `i ≠ r` with a 1 in column `j` gets the pivot row XORed into its
columns `j..N` (the augmented column included). -/
def elimOthers (M : Mat) (N r j : Nat) : Mat := fun i k =>
  if i < N ∧ i ≠ r ∧ M i j = 1 ∧ j ≤ k ∧ k ≤ N then M i k + M r k else M i k

/-- The forward-elimination step of `computeMatrixInfo`: only rows below the
pivot row are reduced, on columns `j..N-1`. -/
def elimBelow (M : Mat) (N r j : Nat) : Mat := fun i k =>
  if r < i ∧ i < N ∧ M i j = 1 ∧ j ≤ k ∧ k < N then M i k + M r k else M i k

/-- The state of the Gauss-Jordan elimination loop. -/
structure JState where
  M : Mat
  rank : Nat
  piv : List Nat

/-- One column of the Gauss-Jordan loop of `computeSolution`. -/
def jordanStep (N : Nat) (st : JState) (j : Nat) : JState :=
  if st.rank < N then
    if findPivot st.M N j st.rank < N then
      ⟨elimOthers (swapRows st.M st.rank (findPivot st.M N j st.rank)) N st.rank j,
        st.rank + 1, st.piv ++ [j]⟩
    else st
  else st

/-- The full Gauss-Jordan elimination of `computeSolution`. -/
def jordanElim (N : Nat) (M : Mat) : JState :=
  (List.range N).foldl (jordanStep N) ⟨M, 0, []⟩

/-- One column of the forward elimination of `computeMatrixInfo`. -/
def gaussStep (N : Nat) (st : Mat × Nat) (j : Nat) : Mat × Nat :=
  if st.2 < N then
    if findPivot st.1 N j st.2 < N then
      (elimBelow (swapRows st.1 st.2 (findPivot st.1 N j st.2)) N st.2 j, st.2 + 1)
    else st
  else st

/-- The forward elimination of `computeMatrixInfo`; returns the reduced matrix
and the rank. -/
def gaussElim (N : Nat) (A : Mat) : Mat × Nat :=
  (List.range N).foldl (gaussStep N) (A, 0)

/-- `computeMatrixInfo`: node count and nullity of the influence matrix. -/
def computeMatrixInfo (nodes : List SNode) (edges : List SEdge) : Nat × Nat :=
  if nodes.length = 0 then (0, 0)
  else (nodes.length,
    nodes.length - (gaussElim nodes.length (buildA nodes edges)).2)

/-- The rank `computeMatrixInfo` computes internally. -/
def gaussRankOf (nodes : List SNode) (edges : List SEdge) : Nat :=
  (gaussElim nodes.length (buildA nodes edges)).2

/-- The eliminated augmented system of `computeSolution`. -/
def elimState (nodes : List SNode) (edges : List SEdge) : JState :=
  jordanElim nodes.length (buildAug nodes edges)

/-- `M.slice(rank).some(row => row[N] === 1)`: the inconsistency test. -/
def inconsistentB (M : Mat) (N r : Nat) : Bool :=
  ((List.range N).drop r).any (fun i => decide (M i N = 1))

/-- Back-substitution of the particular solution:
`xp[pivotCols[i]] = M[i][N]` for each pivot row `i`, all else 0. -/
def particularSol (M : Mat) (N : Nat) (piv : List Nat) : List GF2 :=
  (List.range piv.length).foldl
    (fun xs i => xs.set (piv.getD i 0) (M i N)) (List.replicate N 0)

/-- The free columns: those of `0..N-1` that are not pivot columns. -/
def freeColsOf (nodes : List SNode) (edges : List SEdge) : List Nat :=
  (List.range nodes.length).filter
    (fun j => ! (elimState nodes edges).piv.contains j)

/-- The null-space basis vector attached to free column `f`: 1 at `f`, and 1
at `pivotCols[i]` for every pivot row `i` with a 1 in column `f`. -/
def basisVector (M : Mat) (N : Nat) (piv : List Nat) (f : Nat) : List GF2 :=
  (List.range piv.length).foldl
    (fun v i => if M i f = 1 then v.set (piv.getD i 0) 1 else v)
    ((List.replicate N 0).set f 1)

/-- The null-space basis `computeSolution` computes in min-weight mode. -/
def nullBasisOf (nodes : List SNode) (edges : List SEdge) : List (List GF2) :=
  (freeColsOf nodes edges).map
    (basisVector (elimState nodes edges).M nodes.length (elimState nodes edges).piv)

/-- The particular solution of `computeSolution` as a list. -/
def xpOf (nodes : List SNode) (edges : List SEdge) : List GF2 :=
  particularSol (elimState nodes edges).M nodes.length (elimState nodes edges).piv

/-- Componentwise GF(2) addition (the `^=` inner loop of the search). -/
def addVec (a b : List GF2) : List GF2 := List.zipWith (· + ·) a b

/-- The value of the JavaScript expression `1 << k`: `<<` converts its operands
to 32-bit signed integers and uses only the low five bits of the shift count,
so the result is `2 ^ (k % 32)` for `k % 32 ≤ 30` and `-2^31` at `k % 32 = 31`. -/
def jsShiftBound (k : Nat) : Int :=
  if k % 32 = 31 then -(2 ^ 31) else (2 : Int) ^ (k % 32)

/-- The candidate for subset mask `m`: the particular solution XOR the basis
vectors whose bit is set in `m`; the bit test `(i >> j) & 1` is a JavaScript
32-bit shift, so the shift count is `j % 32`. -/
def candidate (xp : List GF2) (basis : List (List GF2)) (m : Nat) : List GF2 :=
  (List.range basis.length).foldl
    (fun cur j => if (m >>> (j % 32)) % 2 = 1 then addVec cur (basis.getD j []) else cur) xp

/-- The Hamming weight: the sum of the 0/1 entries as integers. -/
def weight (x : List GF2) : Nat := (x.map ZMod.val).sum

/-- The loop body of the search: keep the candidate for mask `m` only when its
weight is strictly smaller than the best weight so far. -/
def minStep (xp : List GF2) (basis : List (List GF2)) (best : List GF2 × Nat)
    (m : Nat) : List GF2 × Nat :=
  if weight (candidate xp basis m) < best.2
    then (candidate xp basis m, weight (candidate xp basis m)) else best

/-- The minimum-weight search `for (let i = 1; i < 1 << freeCols.length; i++)`,
keeping the first candidate of minimal weight (updates only on strictly smaller
weight). The loop bound is the 32-bit value `jsShiftBound k`: the masks visited
are `1, ..., (jsShiftBound k - 1).toNat`, so for `k ≤ 30` all `2^k - 1` nonzero
masks are searched, while at `k % 32 = 31` (bound `-2^31`) or `k % 32 = 0` with
`k > 0` (bound `1`) the loop body never runs and the particular solution is
returned unsearched. -/
def minSearch (xp : List GF2) (basis : List (List GF2)) : List GF2 :=
  ((List.range' 1 (jsShiftBound basis.length - 1).toNat).foldl
    (minStep xp basis) (xp, weight xp)).1

/-- The result of the min-weight branch of `computeSolution`. -/
def bestOf (nodes : List SNode) (edges : List SEdge) : List GF2 :=
  minSearch (xpOf nodes edges) (nullBasisOf nodes edges)

/-- `x.map((val, i) => val === 1 ? ids[i] : null).filter(Boolean)`: the ids at
the 1-positions of `x`; `filter(Boolean)` also drops empty-string ids. -/
def pressList (ids : List String) (x : List GF2) : List String :=
  (List.range x.length).filterMap (fun i =>
    if x.getD i 0 = 1 then
      if ids.getD i "" = "" then none else some (ids.getD i "")
    else none)

/-- `computeSolution`: the full solve pipeline. -/
def computeSolution (nodes : List SNode) (edges : List SEdge)
    (algorithm : AlgorithmType) : Solution :=
  if nodes.length = 0 then ⟨false, [], "No nodes to solve."⟩
  else if inconsistentB (elimState nodes edges).M nodes.length
      (elimState nodes edges).rank then
    ⟨false, [], "Failed: No solution exists."⟩
  else if (freeColsOf nodes edges).length = 0 then
    ⟨true, pressList (nodes.map SNode.id) (xpOf nodes edges),
      "Success: Unique solution found."⟩
  else if algorithm = AlgorithmType.any then
    ⟨true, pressList (nodes.map SNode.id) (xpOf nodes edges),
      "Success: Arbitrary solution found."⟩
  else
    ⟨true, pressList (nodes.map SNode.id) (bestOf nodes edges),
      "Success: Min-Move solution found."⟩

/-- The 4-node star gadget: a center joined to three leaves, with leaves 1
and 2 on. Its system has rank 3 and nullity 1, particular solution
`[1, 1, 1, 0]` (weight 3) and null basis `{[1, 1, 1, 1]}`, so the mask-1
candidate `[0, 0, 0, 1]` has weight 1. -/
def starNodes : List SNode :=
  [⟨"c", false⟩, ⟨"l1", true⟩, ⟨"l2", true⟩, ⟨"l3", false⟩]

/-- The edges of the star gadget: the center joined to each leaf. -/
def starEdges : List SEdge := [⟨"c", "l1"⟩, ⟨"c", "l2"⟩, ⟨"c", "l3"⟩]

/-- The blockwise particular solution of 31 disjoint copies of the star gadget
(124 nodes, nullity 31): each copy contributes the star's particular solution
`[1, 1, 1, 0]`. -/
def starXp31 : List GF2 := (List.replicate 31 ([1, 1, 1, 0] : List GF2)).flatten

/-- The blockwise null basis of the 31-star instance: one vector per copy,
equal to the star's basis vector `[1, 1, 1, 1]` on that copy's four
coordinates and 0 elsewhere. -/
def starBasis31 : List (List GF2) :=
  (List.range 31).map fun s =>
    ((List.range 31).map fun t =>
      if t = s then ([1, 1, 1, 1] : List GF2) else [0, 0, 0, 0]).flatten

/-- The satisfaction predicate for the augmented system: `x` solves every row
of `M`, reading columns `0..N-1` as coefficients and column `N` as the target. -/
def SatAug (M : Mat) (N : Nat) (x : Nat → GF2) : Prop :=
  ∀ i < N, ∑ j ∈ Finset.range N, M i j * x j = M i N

/-- The homogeneous satisfaction predicate: `M · x = 0` on the first `N`
columns. -/
def SatHom (M : Mat) (N : Nat) (x : Nat → GF2) : Prop :=
  ∀ i < N, ∑ j ∈ Finset.range N, M i j * x j = 0

/-- `x` solves the linear system `A · x = b` of the graph: `A` is the influence
matrix and `b` the target vector. -/
def Solves (nodes : List SNode) (edges : List SEdge) (x : Nat → GF2) : Prop :=
  ∀ i < nodes.length,
    ∑ j ∈ Finset.range nodes.length, buildA nodes edges i j * x j = targetVec nodes i

/-- `v` is in the null space of the influence matrix. -/
def HomSolves (nodes : List SNode) (edges : List SEdge) (v : Nat → GF2) : Prop :=
  ∀ i < nodes.length,
    ∑ j ∈ Finset.range nodes.length, buildA nodes edges i j * v j = 0

/-- The invariant maintained by the Gauss-Jordan loop after the columns
`0..j-1` have been processed, relative to the start matrix `M0`. -/
structure JInv (N : Nat) (M0 : Mat) (j : Nat) (st : JState) : Prop where
  rank_le_j : st.rank ≤ j
  rank_le_N : st.rank ≤ N
  piv_len : st.piv.length = st.rank
  piv_lt : ∀ p ∈ st.piv, p < j
  piv_sorted : st.piv.Pairwise (· < ·)
  piv_diag : ∀ i < st.rank, st.M i (st.piv.getD i 0) = 1
  piv_col : ∀ i < st.rank, ∀ q < N, q ≠ i → st.M q (st.piv.getD i 0) = 0
  tail_zero : ∀ q, st.rank ≤ q → q < N → ∀ c < j, st.M q c = 0
  sat_iff : ∀ x, SatAug st.M N x ↔ SatAug M0 N x
  hom_iff : ∀ x, SatHom st.M N x ↔ SatHom M0 N x

-- ===================================================================
-- Generic helper lemmas
-- ===================================================================

theorem GF2.two_cases (a : GF2) : a = 0 ∨ a = 1 := by revert a; decide

theorem GF2.eq_one_of_ne_zero {a : GF2} (h : a ≠ 0) : a = 1 := by revert a h; decide

theorem GF2.ne_zero_iff {a : GF2} : a ≠ 0 ↔ a = 1 := by revert a; decide

/-- Invariant propagation along a fold over `List.range n`. -/
theorem foldlRangeInv {σ : Type} (step : σ → Nat → σ) (P : Nat → σ → Prop) (init : σ)
    (n : Nat) (h0 : P 0 init)
    (hstep : ∀ j st, j < n → P j st → P (j + 1) (step st j)) :
    P n ((List.range n).foldl step init) := by
  induction n with
  | zero => simpa using h0
  | succ n ih =>
    rw [List.range_succ, List.foldl_append]
    exact hstep n _ (Nat.lt_succ_self n)
      (ih (fun j st hj hP => hstep j st (Nat.lt_succ_of_lt hj) hP))

theorem findPivotAux_ge (M : Mat) (j p fuel : Nat) : p ≤ findPivotAux M j p fuel := by
  induction fuel generalizing p with
  | zero => simp [findPivotAux]
  | succ fuel ih =>
    simp only [findPivotAux]
    split
    · exact le_trans (Nat.le_succ p) (ih (p + 1))
    · exact le_refl p

theorem findPivotAux_le (M : Mat) (j p fuel : Nat) : findPivotAux M j p fuel ≤ p + fuel := by
  induction fuel generalizing p with
  | zero => simp [findPivotAux]
  | succ fuel ih =>
    simp only [findPivotAux]
    split
    · exact le_trans (ih (p + 1)) (by omega)
    · omega

theorem findPivotAux_hit (M : Mat) (j p fuel : Nat)
    (h : findPivotAux M j p fuel < p + fuel) : M (findPivotAux M j p fuel) j ≠ 0 := by
  induction fuel generalizing p with
  | zero => simp [findPivotAux] at h
  | succ fuel ih =>
    simp only [findPivotAux] at h ⊢
    by_cases h0 : M p j = 0
    · rw [if_pos h0] at h ⊢
      exact ih (p + 1) (by omega)
    · rw [if_neg h0]
      exact h0

theorem findPivotAux_zero_before (M : Mat) (j p fuel : Nat) :
    ∀ q, p ≤ q → q < findPivotAux M j p fuel → M q j = 0 := by
  induction fuel generalizing p with
  | zero => intro q hq hq2; simp [findPivotAux] at hq2; omega
  | succ fuel ih =>
    intro q hq hq2
    simp only [findPivotAux] at hq2
    by_cases h0 : M p j = 0
    · rw [if_pos h0] at hq2
      rcases Nat.eq_or_lt_of_le hq with h | h
      · rwa [← h]
      · exact ih (p + 1) q h hq2
    · rw [if_neg h0] at hq2; omega

theorem findPivot_ge (M : Mat) (N j p : Nat) : p ≤ findPivot M N j p :=
  findPivotAux_ge M j p (N - p)

theorem findPivot_le (M : Mat) (N j p : Nat) (h : p ≤ N) : findPivot M N j p ≤ N := by
  have := findPivotAux_le M j p (N - p)
  unfold findPivot
  omega

theorem findPivot_hit (M : Mat) (N j p : Nat) (hp : p ≤ N)
    (h : findPivot M N j p < N) : M (findPivot M N j p) j = 1 := by
  have h2 : findPivotAux M j p (N - p) < p + (N - p) := by
    unfold findPivot at h; omega
  have h3 := findPivotAux_hit M j p (N - p) h2
  unfold findPivot
  exact GF2.eq_one_of_ne_zero h3

theorem findPivot_zero_before (M : Mat) (N j p : Nat) :
    ∀ q, p ≤ q → q < findPivot M N j p → M q j = 0 :=
  findPivotAux_zero_before M j p (N - p)

theorem swapRows_left (M : Mat) (a b : Nat) : swapRows M a b a = M b := by
  simp [swapRows]

theorem swapRows_right (M : Mat) (a b : Nat) : swapRows M a b b = M a := by
  unfold swapRows
  by_cases h : b = a <;> simp [h]

theorem swapRows_other (M : Mat) (a b i : Nat) (h1 : i ≠ a) (h2 : i ≠ b) :
    swapRows M a b i = M i := by
  simp [swapRows, h1, h2]

-- ===================================================================
-- Satisfaction predicates and their preservation under row operations
-- ===================================================================

theorem satAug_swap (M : Mat) (N a b : Nat) (ha : a < N) (hb : b < N) (x : Nat → GF2) :
    SatAug (swapRows M a b) N x ↔ SatAug M N x := by
  constructor <;> intro h i hi
  · by_cases h1 : i = a
    · have := h b hb
      rw [swapRows_right] at this
      rwa [h1]
    · by_cases h2 : i = b
      · have := h a ha
        rw [swapRows_left] at this
        rwa [h2]
      · have := h i hi
        rwa [swapRows_other M a b i h1 h2] at this
  · by_cases h1 : i = a
    · rw [h1, swapRows_left]
      exact h b hb
    · by_cases h2 : i = b
      · rw [h2, swapRows_right]
        exact h a ha
      · rw [swapRows_other M a b i h1 h2]
        exact h i hi

theorem satHom_swap (M : Mat) (N a b : Nat) (ha : a < N) (hb : b < N) (x : Nat → GF2) :
    SatHom (swapRows M a b) N x ↔ SatHom M N x := by
  constructor <;> intro h i hi
  · by_cases h1 : i = a
    · have := h b hb
      rw [swapRows_right] at this
      rwa [h1]
    · by_cases h2 : i = b
      · have := h a ha
        rw [swapRows_left] at this
        rwa [h2]
      · have := h i hi
        rwa [swapRows_other M a b i h1 h2] at this
  · by_cases h1 : i = a
    · rw [h1, swapRows_left]
      exact h b hb
    · by_cases h2 : i = b
      · rw [h2, swapRows_right]
        exact h a ha
      · rw [swapRows_other M a b i h1 h2]
        exact h i hi

/-- Adding a fixed row `p` into a selection of other rows preserves the
solution set of the augmented system. -/
theorem satAug_addRows (M : Mat) (N p : Nat) (hp : p < N) (s : Nat → Bool)
    (hsp : s p = false) (x : Nat → GF2) :
    SatAug (fun i k => if s i then M i k + M p k else M i k) N x ↔ SatAug M N x := by
  have hrowp : ∀ k, (if s p then M p k + M p k else M p k) = M p k := by
    intro k; rw [hsp]; simp
  constructor <;> intro h i hi
  · have hpN := h p hp
    simp only [hrowp] at hpN
    have hiN := h i hi
    by_cases hsi : s i
    · simp only [hsi, if_true] at hiN
      rw [Finset.sum_congr rfl (fun j _ => add_mul (M i j) (M p j) (x j)),
        Finset.sum_add_distrib, hpN] at hiN
      exact add_right_cancel hiN
    · simpa only [hsi, if_false] using hiN
  · have hpN := h p hp
    by_cases hsi : s i
    · simp only [hsi, if_true]
      rw [Finset.sum_congr rfl (fun j _ => add_mul (M i j) (M p j) (x j)),
        Finset.sum_add_distrib, hpN, h i hi]
    · simpa only [hsi, if_false] using h i hi

/-- Adding a fixed row `p` into a selection of other rows preserves the
null space. -/
theorem satHom_addRows (M : Mat) (N p : Nat) (hp : p < N) (s : Nat → Bool)
    (hsp : s p = false) (x : Nat → GF2) :
    SatHom (fun i k => if s i then M i k + M p k else M i k) N x ↔ SatHom M N x := by
  have hrowp : ∀ k, (if s p then M p k + M p k else M p k) = M p k := by
    intro k; rw [hsp]; simp
  constructor <;> intro h i hi
  · have hpN := h p hp
    simp only [hrowp] at hpN
    have hiN := h i hi
    by_cases hsi : s i
    · simp only [hsi, if_true] at hiN
      rw [Finset.sum_congr rfl (fun j _ => add_mul (M i j) (M p j) (x j)),
        Finset.sum_add_distrib, hpN, add_zero] at hiN
      exact hiN
    · simpa only [hsi, if_false] using hiN
  · have hpN := h p hp
    by_cases hsi : s i
    · simp only [hsi, if_true]
      rw [Finset.sum_congr rfl (fun j _ => add_mul (M i j) (M p j) (x j)),
        Finset.sum_add_distrib, hpN, h i hi, add_zero]
    · simpa only [hsi, if_false] using h i hi

/-- Satisfaction only reads the first `N` rows and `N+1` columns. -/
theorem satAug_congr (M M2 : Mat) (N : Nat)
    (h : ∀ i < N, ∀ k ≤ N, M i k = M2 i k) (x : Nat → GF2) :
    SatAug M N x ↔ SatAug M2 N x := by
  have key : ∀ i, i < N →
      (∑ j ∈ Finset.range N, M i j * x j) = ∑ j ∈ Finset.range N, M2 i j * x j :=
    fun i hi => Finset.sum_congr rfl
      (fun j hj => by rw [h i hi j (le_of_lt (Finset.mem_range.mp hj))])
  constructor <;> intro hs i hi
  · rw [← key i hi, ← h i hi N le_rfl]
    exact hs i hi
  · rw [key i hi, h i hi N le_rfl]
    exact hs i hi

theorem satHom_congr (M M2 : Mat) (N : Nat)
    (h : ∀ i < N, ∀ k < N, M i k = M2 i k) (x : Nat → GF2) :
    SatHom M N x ↔ SatHom M2 N x := by
  have key : ∀ i, i < N →
      (∑ j ∈ Finset.range N, M i j * x j) = ∑ j ∈ Finset.range N, M2 i j * x j :=
    fun i hi => Finset.sum_congr rfl
      (fun j hj => by rw [h i hi j (Finset.mem_range.mp hj)])
  constructor <;> intro hs i hi
  · rw [← key i hi]
    exact hs i hi
  · rw [key i hi]
    exact hs i hi

-- ===================================================================
-- Pointwise behavior of the elimination steps
-- ===================================================================

theorem elimOthers_col_lt (M : Mat) (N r j i k : Nat) (hk : k < j) :
    elimOthers M N r j i k = M i k := by
  unfold elimOthers
  rw [if_neg]
  intro h
  omega

theorem elimOthers_row_pivot (M : Mat) (N r j k : Nat) :
    elimOthers M N r j r k = M r k := by
  unfold elimOthers
  rw [if_neg]
  intro h
  exact h.2.1 rfl

theorem elimOthers_sel (M : Mat) (N r j i k : Nat) (hi : i < N) (hir : i ≠ r)
    (hij : M i j = 1) (hjk : j ≤ k) (hkN : k ≤ N) :
    elimOthers M N r j i k = M i k + M r k := by
  unfold elimOthers
  rw [if_pos ⟨hi, hir, hij, hjk, hkN⟩]

theorem elimOthers_unsel (M : Mat) (N r j i k : Nat) (hij : M i j ≠ 1) :
    elimOthers M N r j i k = M i k := by
  unfold elimOthers
  rw [if_neg]
  intro h
  exact hij h.2.2.1

/-- When the pivot row is zero left of column `j`, the partial-row update of
`elimOthers` agrees (on columns `0..N`) with adding the full pivot row to the
selected rows. -/
theorem elimOthers_eq_addRows (M : Mat) (N r j : Nat)
    (hz : ∀ c < j, M r c = 0) (i k : Nat) (hk : k ≤ N) :
    elimOthers M N r j i k
      = (fun i' k' => if (decide (i' < N) && !(decide (i' = r)) && decide (M i' j = 1)) = true
          then M i' k' + M r k' else M i' k') i k := by
  show elimOthers M N r j i k
      = if (decide (i < N) && !(decide (i = r)) && decide (M i j = 1)) = true
          then M i k + M r k else M i k
  by_cases h1 : i < N
  · by_cases h2 : i = r
    · subst h2
      rw [elimOthers_row_pivot]
      simp
    · by_cases h3 : M i j = 1
      · have hc : (decide (i < N) && !(decide (i = r)) && decide (M i j = 1)) = true := by
          simp [h1, h2, h3]
        rw [if_pos hc]
        rcases Nat.lt_or_ge k j with hkj | hkj
        · rw [elimOthers_col_lt M N r j i k hkj, hz k hkj, add_zero]
        · exact elimOthers_sel M N r j i k h1 h2 h3 hkj hk
      · have hc : ¬ ((decide (i < N) && !(decide (i = r)) && decide (M i j = 1)) = true) := by
          simp [h3]
        rw [if_neg hc]
        exact elimOthers_unsel M N r j i k h3
  · have hc : ¬ ((decide (i < N) && !(decide (i = r)) && decide (M i j = 1)) = true) := by
      simp [h1]
    rw [if_neg hc]
    unfold elimOthers
    rw [if_neg]
    intro h
    exact h1 h.1

theorem satAug_elimOthers (M : Mat) (N r j : Nat) (hr : r < N)
    (hz : ∀ c < j, M r c = 0) (x : Nat → GF2) :
    SatAug (elimOthers M N r j) N x ↔ SatAug M N x := by
  rw [satAug_congr (elimOthers M N r j)
    (fun i' k' => if (decide (i' < N) && !(decide (i' = r)) && decide (M i' j = 1)) = true
      then M i' k' + M r k' else M i' k') N
    (fun i _ k hk => elimOthers_eq_addRows M N r j hz i k hk) x]
  exact satAug_addRows M N r hr
    (fun i' => decide (i' < N) && !(decide (i' = r)) && decide (M i' j = 1))
    (by simp) x

theorem satHom_elimOthers (M : Mat) (N r j : Nat) (hr : r < N)
    (hz : ∀ c < j, M r c = 0) (x : Nat → GF2) :
    SatHom (elimOthers M N r j) N x ↔ SatHom M N x := by
  rw [satHom_congr (elimOthers M N r j)
    (fun i' k' => if (decide (i' < N) && !(decide (i' = r)) && decide (M i' j = 1)) = true
      then M i' k' + M r k' else M i' k') N
    (fun i _ k hk => elimOthers_eq_addRows M N r j hz i k (le_of_lt hk)) x]
  exact satHom_addRows M N r hr
    (fun i' => decide (i' < N) && !(decide (i' = r)) && decide (M i' j = 1))
    (by simp) x

-- ===================================================================
-- The Gauss-Jordan loop invariant
-- ===================================================================

theorem getD_mem_of_lt (l : List Nat) (i : Nat) (h : i < l.length) : l.getD i 0 ∈ l := by
  rw [List.getD_eq_getElem l 0 h]
  exact List.getElem_mem h

theorem getD_append_last (l : List Nat) (j : Nat) : (l ++ [j]).getD l.length 0 = j := by
  rw [List.getD_append_right _ _ _ _ le_rfl]
  simp

theorem jInv_init (N : Nat) (M0 : Mat) : JInv N M0 0 ⟨M0, 0, []⟩ :=
  { rank_le_j := le_refl 0
    rank_le_N := Nat.zero_le N
    piv_len := rfl
    piv_lt := by intro p hp; simp at hp
    piv_sorted := List.Pairwise.nil
    piv_diag := fun i hi => absurd hi (Nat.not_lt_zero i)
    piv_col := fun i hi => absurd hi (Nat.not_lt_zero i)
    tail_zero := fun q _ _ c hc => absurd hc (Nat.not_lt_zero c)
    sat_iff := fun _ => Iff.rfl
    hom_iff := fun _ => Iff.rfl }

theorem jordanStep_inv (N : Nat) (M0 : Mat) (j : Nat) (st : JState)
    (hjN : j < N) (H : JInv N M0 j st) : JInv N M0 (j + 1) (jordanStep N st j) := by
  unfold jordanStep
  by_cases hr : st.rank < N
  · rw [if_pos hr]
    by_cases hpN : findPivot st.M N j st.rank < N
    · rw [if_pos hpN]
      have hrj : st.rank ≤ j := H.rank_le_j
      have hrp : st.rank ≤ findPivot st.M N j st.rank := findPivot_ge st.M N j st.rank
      have hpj : st.M (findPivot st.M N j st.rank) j = 1 :=
        findPivot_hit st.M N j st.rank (le_of_lt hr) hpN
      set p := findPivot st.M N j st.rank with hpdef
      set M1 := swapRows st.M st.rank p with hM1def
      have hM1r : ∀ k, M1 st.rank k = st.M p k :=
        fun k => congrFun (swapRows_left st.M st.rank p) k
      have hM1p : ∀ k, M1 p k = st.M st.rank k :=
        fun k => congrFun (swapRows_right st.M st.rank p) k
      have hM1o : ∀ q, q ≠ st.rank → q ≠ p → ∀ k, M1 q k = st.M q k :=
        fun q h1 h2 k => congrFun (swapRows_other st.M st.rank p q h1 h2) k
      have hM1tz : ∀ q, st.rank ≤ q → q < N → ∀ c, c < j → M1 q c = 0 := by
        intro q hq hqN c hc
        by_cases hq1 : q = st.rank
        · rw [hq1, hM1r]
          exact H.tail_zero p hrp hpN c hc
        · by_cases hq2 : q = p
          · rw [hq2, hM1p]
            exact H.tail_zero st.rank le_rfl hr c hc
          · rw [hM1o q hq1 hq2]
            exact H.tail_zero q hq hqN c hc
      have hM1rz : ∀ c, c < j → M1 st.rank c = 0 := hM1tz st.rank le_rfl hr
      have hM1rj : M1 st.rank j = 1 := by rw [hM1r]; exact hpj
      set M2 := elimOthers M1 N st.rank j with hM2def
      have hM2r : ∀ k, M2 st.rank k = M1 st.rank k :=
        fun k => elimOthers_row_pivot M1 N st.rank j k
      have hM2lt : ∀ i k, k < j → M2 i k = M1 i k :=
        fun i k hk => elimOthers_col_lt M1 N st.rank j i k hk
      have hM2colj : ∀ q, q < N → q ≠ st.rank → M2 q j = 0 := by
        intro q hqN hqr
        by_cases h1 : M1 q j = 1
        · rw [hM2def, elimOthers_sel M1 N st.rank j q j hqN hqr h1 le_rfl (le_of_lt hjN),
            hM1rj, h1]
          decide
        · rw [hM2def, elimOthers_unsel M1 N st.rank j q j h1]
          rcases GF2.two_cases (M1 q j) with h0 | h0
          · exact h0
          · exact absurd h0 h1
      refine {
        rank_le_j := by simpa using Nat.succ_le_succ hrj
        rank_le_N := by simpa using hr
        piv_len := by simp [H.piv_len]
        piv_lt := ?_
        piv_sorted := ?_
        piv_diag := ?_
        piv_col := ?_
        tail_zero := ?_
        sat_iff := ?_
        hom_iff := ?_ }
      · intro q hq
        simp only [List.mem_append, List.mem_singleton] at hq
        rcases hq with hq | hq
        · exact Nat.lt_succ_of_lt (H.piv_lt q hq)
        · omega
      · refine List.pairwise_append.mpr ⟨H.piv_sorted, List.pairwise_singleton _ j, ?_⟩
        intro a ha b hb
        simp only [List.mem_singleton] at hb
        subst hb
        exact H.piv_lt a ha
      · intro i hi
        simp only at hi ⊢
        rcases Nat.lt_or_ge i st.rank with hilt | hige
        · have hcol_mem : st.piv.getD i 0 ∈ st.piv :=
            getD_mem_of_lt st.piv i (by rw [H.piv_len]; exact hilt)
          have hcol_lt : st.piv.getD i 0 < j := H.piv_lt _ hcol_mem
          rw [List.getD_append _ _ _ _ (by rw [H.piv_len]; exact hilt)]
          rw [hM2lt _ _ hcol_lt]
          rw [hM1o i (by omega) (by omega)]
          exact H.piv_diag i hilt
        · have hieq : i = st.rank := by omega
          subst hieq
          have hlast : (st.piv ++ [j]).getD st.rank 0 = j := by
            rw [← H.piv_len]
            exact getD_append_last st.piv j
          rw [hlast, hM2r]
          exact hM1rj
      · intro i hi q hqN hqi
        simp only at hi hqi ⊢
        rcases Nat.lt_or_ge i st.rank with hilt | hige
        · have hcol_mem : st.piv.getD i 0 ∈ st.piv :=
            getD_mem_of_lt st.piv i (by rw [H.piv_len]; exact hilt)
          have hcol_lt : st.piv.getD i 0 < j := H.piv_lt _ hcol_mem
          rw [List.getD_append _ _ _ _ (by rw [H.piv_len]; exact hilt)]
          rw [hM2lt _ _ hcol_lt]
          by_cases hq1 : q = st.rank
          · rw [hq1, hM1r]
            exact H.piv_col i hilt p hpN (by omega)
          · by_cases hq2 : q = p
            · rw [hq2, hM1p]
              exact H.piv_col i hilt st.rank hr (by omega)
            · rw [hM1o q hq1 hq2]
              exact H.piv_col i hilt q hqN hqi
        · have hieq : i = st.rank := by omega
          subst hieq
          have hlast : (st.piv ++ [j]).getD st.rank 0 = j := by
            rw [← H.piv_len]
            exact getD_append_last st.piv j
          rw [hlast]
          exact hM2colj q hqN hqi
      · intro q hq hqN c hc
        simp only at hq ⊢
        rcases Nat.lt_or_ge c j with hcj | hcj
        · rw [hM2lt _ _ hcj]
          exact hM1tz q (by omega) hqN c hcj
        · have hceq : c = j := by omega
          subst hceq
          exact hM2colj q hqN (by omega)
      · intro x
        exact (satAug_elimOthers M1 N st.rank j hr hM1rz x).trans
          ((satAug_swap st.M N st.rank p hr hpN x).trans (H.sat_iff x))
      · intro x
        exact (satHom_elimOthers M1 N st.rank j hr hM1rz x).trans
          ((satHom_swap st.M N st.rank p hr hpN x).trans (H.hom_iff x))
    · rw [if_neg hpN]
      exact {
        rank_le_j := Nat.le_succ_of_le H.rank_le_j
        rank_le_N := H.rank_le_N
        piv_len := H.piv_len
        piv_lt := fun q hq => Nat.lt_succ_of_lt (H.piv_lt q hq)
        piv_sorted := H.piv_sorted
        piv_diag := H.piv_diag
        piv_col := H.piv_col
        tail_zero := by
          intro q hq hqN c hc
          rcases Nat.lt_or_ge c j with hcj | hcj
          · exact H.tail_zero q hq hqN c hcj
          · have hceq : c = j := by omega
            subst hceq
            exact findPivot_zero_before st.M N c st.rank q hq (by omega)
        sat_iff := H.sat_iff
        hom_iff := H.hom_iff }
  · rw [if_neg hr]
    exact {
      rank_le_j := Nat.le_succ_of_le H.rank_le_j
      rank_le_N := H.rank_le_N
      piv_len := H.piv_len
      piv_lt := fun q hq => Nat.lt_succ_of_lt (H.piv_lt q hq)
      piv_sorted := H.piv_sorted
      piv_diag := H.piv_diag
      piv_col := H.piv_col
      tail_zero := fun q hq hqN _ _ => absurd hqN (by omega)
      sat_iff := H.sat_iff
      hom_iff := H.hom_iff }

/-- The invariant at the end of the Gauss-Jordan loop. -/
theorem jordanElim_inv (N : Nat) (M0 : Mat) : JInv N M0 N (jordanElim N M0) :=
  foldlRangeInv (jordanStep N) (JInv N M0) ⟨M0, 0, []⟩ N (jInv_init N M0)
    (fun j st hj H => jordanStep_inv N M0 j st hj H)

-- ===================================================================
-- Pointwise values of the scatter folds (particular solution, basis vectors)
-- ===================================================================

theorem getD_set_self (xs : List GF2) (n : Nat) (a : GF2) (h : n < xs.length) :
    (xs.set n a).getD n 0 = a := by
  rw [List.getD_eq_getElem _ _ (by simpa using h)]
  simp

theorem getD_set_ne (xs : List GF2) (n m : Nat) (a : GF2) (h : m ≠ n) :
    (xs.set n a).getD m 0 = xs.getD m 0 := by
  unfold List.getD
  rw [List.get?_set_ne _ _ (by omega)]

theorem getD_replicate_zero (N c : Nat) : (List.replicate N (0 : GF2)).getD c 0 = 0 := by
  rcases Nat.lt_or_ge c N with h | h
  · rw [List.getD_eq_getElem _ _ (by simpa using h)]
    simp
  · rw [List.getD_eq_default _ _ (by simpa using h)]

theorem nodup_getD_ne (l : List Nat) (hnd : l.Nodup) (i j : Nat) (hi : i < l.length)
    (hj : j < l.length) (hij : i ≠ j) : l.getD i 0 ≠ l.getD j 0 := by
  rw [List.getD_eq_getElem _ _ hi, List.getD_eq_getElem _ _ hj]
  intro h
  exact hij ((List.Nodup.getElem_inj_iff hnd).mp h)

theorem scatterFold_length (l : List Nat) (cond : Nat → Prop) [DecidablePred cond]
    (vals : Nat → GF2) (init : List GF2) (m : Nat) :
    ((List.range m).foldl
      (fun xs i => if cond i then xs.set (l.getD i 0) (vals i) else xs) init).length
      = init.length := by
  induction m with
  | zero => simp
  | succ m ih =>
    rw [List.range_succ, List.foldl_append, List.foldl_cons, List.foldl_nil]
    by_cases hc : cond m
    · rw [if_pos hc, List.length_set]
      exact ih
    · rw [if_neg hc]
      exact ih

/-- The entries of a fold of conditional single-position writes at pairwise
distinct positions: each position holds its written value, everything else
holds the initial value (stated as the initial entry plus a sum with at most
one nonzero term). -/
theorem scatter_getD (l : List Nat) (N : Nat) (cond : Nat → Prop) [DecidablePred cond]
    (vals : Nat → GF2) (init : List GF2)
    (hlN : ∀ i < l.length, l.getD i 0 < N) (hnd : l.Nodup) (hlen : init.length = N)
    (hinit : ∀ i < l.length, init.getD (l.getD i 0) 0 = 0)
    (m : Nat) (hm : m ≤ l.length) (c : Nat) :
    ((List.range m).foldl
        (fun xs i => if cond i then xs.set (l.getD i 0) (vals i) else xs) init).getD c 0
      = init.getD c 0
        + ∑ i ∈ Finset.range m, (if c = l.getD i 0 ∧ cond i then vals i else 0) := by
  induction m with
  | zero => simp
  | succ m ih =>
    have hm2 : m ≤ l.length := by omega
    rw [List.range_succ, List.foldl_append, List.foldl_cons, List.foldl_nil,
      Finset.sum_range_succ]
    by_cases hcm : cond m
    · rw [if_pos hcm]
      by_cases hc : c = l.getD m 0
      · subst hc
        have hlenF : ((List.range m).foldl
            (fun xs i => if cond i then xs.set (l.getD i 0) (vals i) else xs) init).length
              = init.length := scatterFold_length l cond vals init m
        rw [getD_set_self _ _ _ (by rw [hlenF, hlen]; exact hlN m (by omega))]
        rw [hinit m (by omega)]
        rw [Finset.sum_eq_zero, if_pos ⟨rfl, hcm⟩, zero_add, zero_add]
        intro i hi
        rw [if_neg]
        intro hcontra
        exact nodup_getD_ne l hnd m i (by omega) (by
          have := Finset.mem_range.mp hi
          omega) (by
          have := Finset.mem_range.mp hi
          omega) hcontra.1
      · rw [getD_set_ne _ _ _ _ hc, ih hm2,
          if_neg (fun hcontra => hc hcontra.1), add_zero]
    · rw [if_neg hcm, ih hm2, if_neg (fun hcontra => hcm hcontra.2), add_zero]

theorem particularSol_length (M : Mat) (N : Nat) (piv : List Nat) :
    (particularSol M N piv).length = N := by
  unfold particularSol
  have hfun : (fun (xs : List GF2) i => xs.set (piv.getD i 0) (M i N))
      = fun (xs : List GF2) i =>
          if (fun _ : Nat => True) i then xs.set (piv.getD i 0) (M i N) else xs := by
    funext xs i
    simp
  rw [hfun, scatterFold_length]
  simp

theorem particularSol_getD (M : Mat) (N : Nat) (piv : List Nat)
    (hlN : ∀ i < piv.length, piv.getD i 0 < N) (hnd : piv.Nodup) (c : Nat) :
    (particularSol M N piv).getD c 0
      = ∑ i ∈ Finset.range piv.length, (if c = piv.getD i 0 then M i N else 0) := by
  unfold particularSol
  have hfun : (fun (xs : List GF2) i => xs.set (piv.getD i 0) (M i N))
      = fun (xs : List GF2) i =>
          if (fun _ : Nat => True) i then xs.set (piv.getD i 0) (M i N) else xs := by
    funext xs i
    simp
  rw [hfun, scatter_getD piv N (fun _ => True) (fun i => M i N) (List.replicate N 0)
    hlN hnd (by simp) (fun i _ => getD_replicate_zero N (piv.getD i 0)) piv.length le_rfl c]
  rw [getD_replicate_zero, zero_add]
  exact Finset.sum_congr rfl (fun i _ => by simp)

theorem basisVector_length (M : Mat) (N : Nat) (piv : List Nat) (f : Nat) :
    (basisVector M N piv f).length = ((List.replicate N (0 : GF2)).set f 1).length := by
  unfold basisVector
  exact scatterFold_length piv (fun i => M i f = 1) (fun _ => 1) _ piv.length

theorem basisVector_length_eq (M : Mat) (N : Nat) (piv : List Nat) (f : Nat) :
    (basisVector M N piv f).length = N := by
  rw [basisVector_length]
  simp

theorem basisVector_getD (M : Mat) (N : Nat) (piv : List Nat) (f : Nat)
    (hlN : ∀ i < piv.length, piv.getD i 0 < N) (hnd : piv.Nodup)
    (hfp : ∀ i < piv.length, piv.getD i 0 ≠ f) (c : Nat) :
    (basisVector M N piv f).getD c 0
      = (if c = f then ((List.replicate N (0 : GF2)).set f 1).getD f 0 else 0)
        + ∑ i ∈ Finset.range piv.length,
            (if c = piv.getD i 0 ∧ M i f = 1 then 1 else 0) := by
  unfold basisVector
  rw [scatter_getD piv N (fun i => M i f = 1) (fun _ => 1)
    ((List.replicate N 0).set f 1) hlN hnd (by simp)
    (fun i hi => by rw [getD_set_ne _ _ _ _ (hfp i hi), getD_replicate_zero])
    piv.length le_rfl c]
  congr 1
  by_cases hc : c = f
  · rw [if_pos hc, hc]
  · rw [if_neg hc, getD_set_ne _ _ _ _ hc, getD_replicate_zero]

/-- The entry of a basis vector at its own free column is 1 (when `f < N`). -/
theorem basisVector_getD_simple (M : Mat) (N : Nat) (piv : List Nat) (f : Nat)
    (hlN : ∀ i < piv.length, piv.getD i 0 < N) (hnd : piv.Nodup)
    (hfp : ∀ i < piv.length, piv.getD i 0 ≠ f) (hf : f < N) (c : Nat) :
    (basisVector M N piv f).getD c 0
      = (if c = f then 1 else 0)
        + ∑ i ∈ Finset.range piv.length,
            (if c = piv.getD i 0 ∧ M i f = 1 then 1 else 0) := by
  rw [basisVector_getD M N piv f hlN hnd hfp c]
  congr 1
  by_cases hc : c = f
  · rw [if_pos hc, if_pos hc, getD_set_self _ _ _ (by simpa using hf)]
  · rw [if_neg hc, if_neg hc]

-- ===================================================================
-- Facts about the eliminated system of computeSolution
-- ===================================================================

theorem mem_drop_range_iff (N r q : Nat) : q ∈ (List.range N).drop r ↔ (r ≤ q ∧ q < N) := by
  constructor
  · intro h
    rw [List.mem_iff_getElem] at h
    obtain ⟨i, hi, hEq⟩ := h
    rw [List.getElem_drop, List.getElem_range] at hEq
    rw [List.length_drop, List.length_range] at hi
    omega
  · intro ⟨h1, h2⟩
    rw [List.mem_iff_getElem]
    refine ⟨q - r, ?_, ?_⟩
    · rw [List.length_drop, List.length_range]; omega
    · rw [List.getElem_drop, List.getElem_range]; omega

theorem inconsistentB_false_iff (M : Mat) (N r : Nat) :
    inconsistentB M N r = false ↔ ∀ q, r ≤ q → q < N → M q N = 0 := by
  unfold inconsistentB
  rw [List.any_eq_false]
  constructor
  · intro h q hq1 hq2
    have := h q ((mem_drop_range_iff N r q).mpr ⟨hq1, hq2⟩)
    simp only [decide_eq_true_eq] at this
    rcases GF2.two_cases (M q N) with h0 | h0
    · exact h0
    · exact absurd h0 this
  · intro h q hq
    obtain ⟨hq1, hq2⟩ := (mem_drop_range_iff N r q).mp hq
    simp only [decide_eq_true_eq]
    rw [h q hq1 hq2]
    decide

theorem idxMap_lt (ids : List String) (s : String) (u : Nat) (h : idxMap ids s = some u) :
    u < ids.length := by
  unfold idxMap at h
  have := foldlRangeInv (fun acc i => if ids.getD i "" = s then some i else acc)
    (fun _ acc => ∀ v, acc = some v → v < ids.length) none ids.length
    (by intro v hv; cases hv)
    (by
      intro j st hj hst v hv
      dsimp only at hv
      by_cases hc : ids.getD j "" = s
      · rw [if_pos hc] at hv
        cases hv
        exact hj
      · rw [if_neg hc] at hv
        exact hst v hv)
  exact this u h

-- ===================================================================
-- The matrix builders: the augmented matrix restricted to the first N
-- columns is the influence matrix, and its last column is the target
-- ===================================================================

theorem applyEdge_agree (idx : String → Option Nat) (e : SEdge) (B1 B2 : Mat) (N : Nat)
    (hag : ∀ i k, k < N → B1 i k = B2 i k) :
    ∀ i k, k < N → applyEdge idx B1 e i k = applyEdge idx B2 e i k := by
  intro i k hk
  unfold applyEdge
  cases idx e.source <;> cases idx e.target
  · exact hag i k hk
  · exact hag i k hk
  · exact hag i k hk
  · simp only
    split
    · rfl
    · exact hag i k hk

theorem foldl_applyEdge_agree (idx : String → Option Nat) (edges : List SEdge)
    (B1 B2 : Mat) (N : Nat) (hag : ∀ i k, k < N → B1 i k = B2 i k) :
    ∀ i k, k < N →
      (edges.foldl (applyEdge idx) B1) i k = (edges.foldl (applyEdge idx) B2) i k := by
  induction edges generalizing B1 B2 with
  | nil => exact hag
  | cons e es ih =>
    rw [List.foldl_cons, List.foldl_cons]
    exact ih (applyEdge idx B1 e) (applyEdge idx B2 e) (applyEdge_agree idx e B1 B2 N hag)

theorem applyEdge_colN (idx : String → Option Nat) (N : Nat)
    (hidx : ∀ s u, idx s = some u → u < N) (e : SEdge) (B : Mat) (i : Nat) :
    applyEdge idx B e i N = B i N := by
  unfold applyEdge
  cases hs : idx e.source with
  | none => rfl
  | some u =>
    cases ht : idx e.target with
    | none => rfl
    | some v =>
      simp only
      rw [if_neg]
      intro h
      rcases h with ⟨_, hkv⟩ | ⟨_, hku⟩
      · exact absurd (hkv ▸ hidx e.target v ht) (lt_irrefl N)
      · exact absurd (hku ▸ hidx e.source u hs) (lt_irrefl N)

theorem foldl_applyEdge_colN (idx : String → Option Nat) (N : Nat)
    (hidx : ∀ s u, idx s = some u → u < N) (edges : List SEdge) (B : Mat) (i : Nat) :
    (edges.foldl (applyEdge idx) B) i N = B i N := by
  induction edges generalizing B with
  | nil => rfl
  | cons e es ih =>
    rw [List.foldl_cons, ih (applyEdge idx B e), applyEdge_colN idx N hidx e B i]

theorem buildAug_eq_buildA (nodes : List SNode) (edges : List SEdge) :
    ∀ i k, k < nodes.length →
      buildAug nodes edges i k = buildA nodes edges i k := by
  unfold buildAug buildA
  apply foldl_applyEdge_agree
  intro i k hk
  unfold baseAug baseA
  by_cases h1 : i < nodes.length ∧ k = i
  · rw [if_pos h1, if_pos h1]
  · rw [if_neg h1, if_neg h1, if_neg]
    intro h2
    omega

theorem buildAug_colN (nodes : List SNode) (edges : List SEdge) (i : Nat)
    (hi : i < nodes.length) :
    buildAug nodes edges i nodes.length = targetVec nodes i := by
  unfold buildAug
  rw [foldl_applyEdge_colN (idxMap (nodes.map SNode.id)) nodes.length
    (fun s u h => by simpa using idxMap_lt (nodes.map SNode.id) s u h) edges (baseAug nodes) i]
  unfold baseAug targetVec
  rw [if_neg (by omega), if_pos ⟨hi, rfl⟩]

theorem satAug_buildAug_iff (nodes : List SNode) (edges : List SEdge) (x : Nat → GF2) :
    SatAug (buildAug nodes edges) nodes.length x ↔ Solves nodes edges x := by
  have key : ∀ i, i < nodes.length →
      (∑ j ∈ Finset.range nodes.length, buildAug nodes edges i j * x j)
        = ∑ j ∈ Finset.range nodes.length, buildA nodes edges i j * x j :=
    fun i hi => Finset.sum_congr rfl (fun j hj =>
      by rw [buildAug_eq_buildA nodes edges i j (Finset.mem_range.mp hj)])
  unfold SatAug Solves
  constructor <;> intro h i hi
  · rw [← key i hi, ← buildAug_colN nodes edges i hi]
    exact h i hi
  · rw [key i hi, buildAug_colN nodes edges i hi]
    exact h i hi

theorem satHom_buildAug_iff (nodes : List SNode) (edges : List SEdge) (v : Nat → GF2) :
    SatHom (buildAug nodes edges) nodes.length v ↔ HomSolves nodes edges v := by
  have key : ∀ i, i < nodes.length →
      (∑ j ∈ Finset.range nodes.length, buildAug nodes edges i j * v j)
        = ∑ j ∈ Finset.range nodes.length, buildA nodes edges i j * v j :=
    fun i hi => Finset.sum_congr rfl (fun j hj =>
      by rw [buildAug_eq_buildA nodes edges i j (Finset.mem_range.mp hj)])
  unfold SatHom HomSolves
  constructor <;> intro h i hi
  · rw [← key i hi]
    exact h i hi
  · rw [key i hi]
    exact h i hi

-- ===================================================================
-- The particular solution solves the system; basis vectors are null
-- ===================================================================

theorem elimState_inv (nodes : List SNode) (edges : List SEdge) :
    JInv nodes.length (buildAug nodes edges) nodes.length (elimState nodes edges) :=
  jordanElim_inv nodes.length (buildAug nodes edges)

theorem elimState_piv_nodup (nodes : List SNode) (edges : List SEdge) :
    (elimState nodes edges).piv.Nodup :=
  (elimState_inv nodes edges).piv_sorted.imp ne_of_lt

theorem elimState_piv_lt (nodes : List SNode) (edges : List SEdge) :
    ∀ i < (elimState nodes edges).piv.length,
      (elimState nodes edges).piv.getD i 0 < nodes.length :=
  fun i hi => (elimState_inv nodes edges).piv_lt _ (getD_mem_of_lt _ i hi)

theorem xp_solves (nodes : List SNode) (edges : List SEdge)
    (hcons : inconsistentB (elimState nodes edges).M nodes.length
      (elimState nodes edges).rank = false) :
    Solves nodes edges (fun c => (xpOf nodes edges).getD c 0) := by
  have H := elimState_inv nodes edges
  rw [← satAug_buildAug_iff, ← H.sat_iff]
  intro i hi
  have hx : ∀ c, (xpOf nodes edges).getD c 0
      = ∑ i2 ∈ Finset.range (elimState nodes edges).piv.length,
          (if c = (elimState nodes edges).piv.getD i2 0
            then (elimState nodes edges).M i2 nodes.length else 0) :=
    fun c => particularSol_getD (elimState nodes edges).M nodes.length
      (elimState nodes edges).piv (elimState_piv_lt nodes edges)
      (elimState_piv_nodup nodes edges) c
  rcases Nat.lt_or_ge i (elimState nodes edges).rank with hir | hir
  · calc ∑ j ∈ Finset.range nodes.length,
          (elimState nodes edges).M i j * (xpOf nodes edges).getD j 0
        = ∑ j ∈ Finset.range nodes.length,
            ∑ i2 ∈ Finset.range (elimState nodes edges).piv.length,
              (if j = (elimState nodes edges).piv.getD i2 0
                then (elimState nodes edges).M i j
                  * (elimState nodes edges).M i2 nodes.length else 0) := by
          refine Finset.sum_congr rfl (fun j _ => ?_)
          rw [hx j, Finset.mul_sum]
          exact Finset.sum_congr rfl (fun i2 _ => by rw [mul_ite, mul_zero])
      _ = ∑ i2 ∈ Finset.range (elimState nodes edges).piv.length,
            ∑ j ∈ Finset.range nodes.length,
              (if j = (elimState nodes edges).piv.getD i2 0
                then (elimState nodes edges).M i j
                  * (elimState nodes edges).M i2 nodes.length else 0) := Finset.sum_comm
      _ = ∑ i2 ∈ Finset.range (elimState nodes edges).piv.length,
            (elimState nodes edges).M i ((elimState nodes edges).piv.getD i2 0)
              * (elimState nodes edges).M i2 nodes.length := by
          refine Finset.sum_congr rfl (fun i2 hi2 => ?_)
          rw [Finset.sum_ite_eq' (Finset.range nodes.length)
            ((elimState nodes edges).piv.getD i2 0)
            (fun j => (elimState nodes edges).M i j
              * (elimState nodes edges).M i2 nodes.length)]
          rw [if_pos (Finset.mem_range.mpr
            (elimState_piv_lt nodes edges i2 (Finset.mem_range.mp hi2)))]
      _ = ∑ i2 ∈ Finset.range (elimState nodes edges).piv.length,
            (if i2 = i then (elimState nodes edges).M i2 nodes.length else 0) := by
          refine Finset.sum_congr rfl (fun i2 hi2 => ?_)
          have hi2r : i2 < (elimState nodes edges).rank := by
            have h1 := Finset.mem_range.mp hi2
            have h2 := H.piv_len
            omega
          by_cases hieq : i2 = i
          · subst hieq
            rw [H.piv_diag i2 hi2r, one_mul, if_pos rfl]
          · rw [H.piv_col i2 hi2r i hi (fun hcc => hieq hcc.symm), zero_mul, if_neg hieq]
      _ = (elimState nodes edges).M i nodes.length := by
          rw [Finset.sum_ite_eq' (Finset.range (elimState nodes edges).piv.length) i
            (fun i2 => (elimState nodes edges).M i2 nodes.length)]
          rw [if_pos (Finset.mem_range.mpr (by rw [H.piv_len]; exact hir))]
  · have hrow : ∀ c < nodes.length, (elimState nodes edges).M i c = 0 :=
      fun c hc => H.tail_zero i hir hi c hc
    have hrhs : (elimState nodes edges).M i nodes.length = 0 :=
      (inconsistentB_false_iff _ _ _).mp hcons i hir hi
    rw [hrhs]
    refine Finset.sum_eq_zero (fun j hj => ?_)
    rw [hrow j (Finset.mem_range.mp hj), zero_mul]

theorem mem_freeColsOf (nodes : List SNode) (edges : List SEdge) (f : Nat)
    (hf : f ∈ freeColsOf nodes edges) :
    f < nodes.length ∧ f ∉ (elimState nodes edges).piv := by
  unfold freeColsOf at hf
  rw [List.mem_filter] at hf
  obtain ⟨h1, h2⟩ := hf
  refine ⟨List.mem_range.mp h1, ?_⟩
  simp only [Bool.not_eq_true'] at h2
  intro hmem
  simp only [List.contains_eq_any_beq, List.any_eq_false, beq_iff_eq] at h2
  exact h2 f hmem rfl

theorem basis_homSolves (nodes : List SNode) (edges : List SEdge) (f : Nat)
    (hf : f ∈ freeColsOf nodes edges) :
    HomSolves nodes edges
      (fun c => (basisVector (elimState nodes edges).M nodes.length
        (elimState nodes edges).piv f).getD c 0) := by
  have H := elimState_inv nodes edges
  obtain ⟨hfN, hfpi⟩ := mem_freeColsOf nodes edges f hf
  have hfp : ∀ i < (elimState nodes edges).piv.length,
      (elimState nodes edges).piv.getD i 0 ≠ f := by
    intro i hi hEq
    exact hfpi (hEq ▸ getD_mem_of_lt _ i hi)
  rw [← satHom_buildAug_iff, ← H.hom_iff]
  intro i hi
  have hv : ∀ c, (basisVector (elimState nodes edges).M nodes.length
      (elimState nodes edges).piv f).getD c 0
      = (if c = f then 1 else 0)
        + ∑ i2 ∈ Finset.range (elimState nodes edges).piv.length,
            (if c = (elimState nodes edges).piv.getD i2 0
              ∧ (elimState nodes edges).M i2 f = 1 then 1 else 0) :=
    fun c => basisVector_getD_simple (elimState nodes edges).M nodes.length
      (elimState nodes edges).piv f (elimState_piv_lt nodes edges)
      (elimState_piv_nodup nodes edges) hfp hfN c
  rcases Nat.lt_or_ge i (elimState nodes edges).rank with hir | hir
  · have hsplit : ∑ j ∈ Finset.range nodes.length,
        (elimState nodes edges).M i j
          * (basisVector (elimState nodes edges).M nodes.length
              (elimState nodes edges).piv f).getD j 0
        = (∑ j ∈ Finset.range nodes.length,
            (elimState nodes edges).M i j * (if j = f then 1 else 0))
          + ∑ j ∈ Finset.range nodes.length,
              (elimState nodes edges).M i j
                * ∑ i2 ∈ Finset.range (elimState nodes edges).piv.length,
                    (if j = (elimState nodes edges).piv.getD i2 0
                      ∧ (elimState nodes edges).M i2 f = 1 then 1 else 0) := by
      rw [← Finset.sum_add_distrib]
      refine Finset.sum_congr rfl (fun j _ => ?_)
      rw [hv j, mul_add]
    rw [hsplit]
    have hfirst : ∑ j ∈ Finset.range nodes.length,
        (elimState nodes edges).M i j * (if j = f then 1 else 0)
        = (elimState nodes edges).M i f := by
      have : ∀ j, (elimState nodes edges).M i j * (if j = f then 1 else 0)
          = if j = f then (elimState nodes edges).M i j else 0 := by
        intro j
        rw [mul_ite, mul_one, mul_zero]
      rw [Finset.sum_congr rfl (fun j _ => this j),
        Finset.sum_ite_eq' (Finset.range nodes.length) f
          (fun j => (elimState nodes edges).M i j),
        if_pos (Finset.mem_range.mpr hfN)]
    have hsecond : ∑ j ∈ Finset.range nodes.length,
        (elimState nodes edges).M i j
          * ∑ i2 ∈ Finset.range (elimState nodes edges).piv.length,
              (if j = (elimState nodes edges).piv.getD i2 0
                ∧ (elimState nodes edges).M i2 f = 1 then 1 else 0)
        = (if (elimState nodes edges).M i f = 1 then 1 else 0) := by
      calc ∑ j ∈ Finset.range nodes.length,
            (elimState nodes edges).M i j
              * ∑ i2 ∈ Finset.range (elimState nodes edges).piv.length,
                  (if j = (elimState nodes edges).piv.getD i2 0
                    ∧ (elimState nodes edges).M i2 f = 1 then 1 else 0)
          = ∑ i2 ∈ Finset.range (elimState nodes edges).piv.length,
              ∑ j ∈ Finset.range nodes.length,
                (if j = (elimState nodes edges).piv.getD i2 0
                  then (if (elimState nodes edges).M i2 f = 1
                    then (elimState nodes edges).M i j else 0) else 0) := by
            rw [← Finset.sum_comm]
            refine Finset.sum_congr rfl (fun j _ => ?_)
            rw [Finset.mul_sum]
            refine Finset.sum_congr rfl (fun i2 _ => ?_)
            rw [mul_ite, mul_one, mul_zero, ite_and]
        _ = ∑ i2 ∈ Finset.range (elimState nodes edges).piv.length,
              (if (elimState nodes edges).M i2 f = 1
                then (elimState nodes edges).M i
                  ((elimState nodes edges).piv.getD i2 0) else 0) := by
            refine Finset.sum_congr rfl (fun i2 hi2 => ?_)
            rw [Finset.sum_ite_eq' (Finset.range nodes.length)
              ((elimState nodes edges).piv.getD i2 0)
              (fun j => if (elimState nodes edges).M i2 f = 1
                then (elimState nodes edges).M i j else 0),
              if_pos (Finset.mem_range.mpr
                (elimState_piv_lt nodes edges i2 (Finset.mem_range.mp hi2)))]
        _ = ∑ i2 ∈ Finset.range (elimState nodes edges).piv.length,
              (if i2 = i then (if (elimState nodes edges).M i2 f = 1 then 1 else 0)
                else 0) := by
            refine Finset.sum_congr rfl (fun i2 hi2 => ?_)
            have hi2r : i2 < (elimState nodes edges).rank := by
              have h1 := Finset.mem_range.mp hi2
              have h2 := H.piv_len
              omega
            by_cases hieq : i2 = i
            · subst hieq
              rw [H.piv_diag i2 hi2r, if_pos rfl]
            · rw [H.piv_col i2 hi2r i hi (fun hcc => hieq hcc.symm), if_neg hieq]
              rw [ite_self]
        _ = (if (elimState nodes edges).M i f = 1 then 1 else 0) := by
            rw [Finset.sum_ite_eq' (Finset.range (elimState nodes edges).piv.length) i
              (fun i2 => if (elimState nodes edges).M i2 f = 1 then 1 else 0),
              if_pos (Finset.mem_range.mpr (by rw [H.piv_len]; exact hir))]
    rw [hfirst, hsecond]
    rcases GF2.two_cases ((elimState nodes edges).M i f) with h0 | h0
    · rw [h0, if_neg (by decide)]
      decide
    · rw [h0, if_pos rfl]
      decide
  · have hrow : ∀ c < nodes.length, (elimState nodes edges).M i c = 0 :=
      fun c hc => H.tail_zero i hir hi c hc
    refine Finset.sum_eq_zero (fun j hj => ?_)
    rw [hrow j (Finset.mem_range.mp hj), zero_mul]

-- ===================================================================
-- Linearity: candidates of the min-weight search all solve the system
-- ===================================================================

theorem getD_mem {α : Type} (l : List α) (d : α) (i : Nat) (h : i < l.length) :
    l.getD i d ∈ l := by
  rw [List.getD_eq_getElem l d h]
  exact List.getElem_mem h

theorem nodup_getD_inj {α : Type} (l : List α) (d : α) (hnd : l.Nodup) (i j : Nat)
    (hi : i < l.length) (hj : j < l.length) (h : l.getD i d = l.getD j d) : i = j := by
  rw [List.getD_eq_getElem l d hi, List.getD_eq_getElem l d hj] at h
  exact (List.Nodup.getElem_inj_iff hnd).mp h

theorem solves_add_hom (nodes : List SNode) (edges : List SEdge) (x v : Nat → GF2)
    (hx : Solves nodes edges x) (hv : HomSolves nodes edges v) :
    Solves nodes edges (fun c => x c + v c) := by
  intro i hi
  have : ∀ j, buildA nodes edges i j * (x j + v j)
      = buildA nodes edges i j * x j + buildA nodes edges i j * v j :=
    fun j => mul_add _ _ _
  rw [Finset.sum_congr rfl (fun j _ => this j), Finset.sum_add_distrib,
    hx i hi, hv i hi, add_zero]

theorem addVec_length (a b : List GF2) : (addVec a b).length = min a.length b.length := by
  unfold addVec
  exact List.length_zipWith _ a b

theorem addVec_getD (a b : List GF2) (hab : a.length = b.length) (c : Nat) :
    (addVec a b).getD c 0 = a.getD c 0 + b.getD c 0 := by
  rcases Nat.lt_or_ge c a.length with h | h
  · have hc2 : c < b.length := hab ▸ h
    have hc3 : c < (addVec a b).length := by rw [addVec_length]; omega
    rw [List.getD_eq_getElem _ _ h, List.getD_eq_getElem _ _ hc2,
      List.getD_eq_getElem _ _ hc3]
    unfold addVec
    rw [List.getElem_zipWith]
  · have hc2 : b.length ≤ c := hab ▸ h
    have hc3 : (addVec a b).length ≤ c := by rw [addVec_length]; omega
    rw [List.getD_eq_default _ _ h, List.getD_eq_default _ _ hc2,
      List.getD_eq_default _ _ hc3, add_zero]

theorem xpOf_length (nodes : List SNode) (edges : List SEdge) :
    (xpOf nodes edges).length = nodes.length :=
  particularSol_length _ _ _

theorem nullBasisOf_length (nodes : List SNode) (edges : List SEdge) :
    (nullBasisOf nodes edges).length = (freeColsOf nodes edges).length := by
  unfold nullBasisOf
  exact List.length_map _ _

theorem nullBasisOf_getD_eq (nodes : List SNode) (edges : List SEdge) (j : Nat)
    (hj : j < (nullBasisOf nodes edges).length) :
    (nullBasisOf nodes edges).getD j []
      = basisVector (elimState nodes edges).M nodes.length (elimState nodes edges).piv
          ((freeColsOf nodes edges).getD j 0) := by
  have hj2 : j < (freeColsOf nodes edges).length := by
    rw [← nullBasisOf_length nodes edges]
    exact hj
  unfold nullBasisOf at hj ⊢
  rw [List.getD_eq_getElem _ _ hj, List.getElem_map,
    List.getD_eq_getElem _ _ hj2]

theorem nullBasisOf_getD_length (nodes : List SNode) (edges : List SEdge) (j : Nat)
    (hj : j < (nullBasisOf nodes edges).length) :
    ((nullBasisOf nodes edges).getD j []).length = nodes.length := by
  rw [nullBasisOf_getD_eq nodes edges j hj]
  exact basisVector_length_eq _ _ _ _

theorem nullBasisOf_getD_hom (nodes : List SNode) (edges : List SEdge) (j : Nat)
    (hj : j < (nullBasisOf nodes edges).length) :
    HomSolves nodes edges (fun c => ((nullBasisOf nodes edges).getD j []).getD c 0) := by
  have hj2 : j < (freeColsOf nodes edges).length := by
    rw [← nullBasisOf_length nodes edges]
    exact hj
  rw [nullBasisOf_getD_eq nodes edges j hj]
  exact basis_homSolves nodes edges _ (getD_mem _ 0 j hj2)

theorem candidate_inv (nodes : List SNode) (edges : List SEdge)
    (hcons : inconsistentB (elimState nodes edges).M nodes.length
      (elimState nodes edges).rank = false) (m : Nat) :
    (candidate (xpOf nodes edges) (nullBasisOf nodes edges) m).length = nodes.length
    ∧ Solves nodes edges
        (fun c => (candidate (xpOf nodes edges) (nullBasisOf nodes edges) m).getD c 0) := by
  unfold candidate
  refine foldlRangeInv _
    (fun (_ : Nat) (cur : List GF2) => cur.length = nodes.length
      ∧ Solves nodes edges (fun c => cur.getD c 0)) _
    (nullBasisOf nodes edges).length
    ⟨xpOf_length nodes edges, xp_solves nodes edges hcons⟩ ?_
  intro j cur hj hP
  obtain ⟨hl, hs⟩ := hP
  by_cases hbit : (m >>> (j % 32)) % 2 = 1
  · rw [if_pos hbit]
    have hbl := nullBasisOf_getD_length nodes edges j hj
    constructor
    · rw [addVec_length, hl, hbl]
      exact Nat.min_self _
    · have hfun : (fun c => (addVec cur ((nullBasisOf nodes edges).getD j [])).getD c 0)
          = fun c => cur.getD c 0 + ((nullBasisOf nodes edges).getD j []).getD c 0 :=
        funext (addVec_getD cur _ (by rw [hl, hbl]))
      rw [hfun]
      exact solves_add_hom nodes edges _ _ hs (nullBasisOf_getD_hom nodes edges j hj)
  · rw [if_neg hbit]
    exact ⟨hl, hs⟩

theorem candidate_zero (xp : List GF2) (basis : List (List GF2)) :
    candidate xp basis 0 = xp := by
  unfold candidate
  refine foldlRangeInv _ (fun _ cur => cur = xp) _ basis.length rfl ?_
  intro j cur hj hP
  rw [if_neg (by simp), hP]

-- ===================================================================
-- The minimum-weight search: result is the first candidate of least weight
-- ===================================================================

theorem minStep_pos (xp : List GF2) (basis : List (List GF2)) (best : List GF2 × Nat)
    (m : Nat) (h : weight (candidate xp basis m) < best.2) :
    minStep xp basis best m = (candidate xp basis m, weight (candidate xp basis m)) := by
  unfold minStep
  rw [if_pos h]

theorem minStep_neg (xp : List GF2) (basis : List (List GF2)) (best : List GF2 × Nat)
    (m : Nat) (h : ¬ weight (candidate xp basis m) < best.2) :
    minStep xp basis best m = best := by
  unfold minStep
  rw [if_neg h]

theorem minFold_spec (xp : List GF2) (basis : List (List GF2)) (n : Nat) :
    ((List.range' 1 n).foldl (minStep xp basis) (xp, weight xp)).2
      = weight ((List.range' 1 n).foldl (minStep xp basis) (xp, weight xp)).1
    ∧ ∃ m ≤ n,
        ((List.range' 1 n).foldl (minStep xp basis) (xp, weight xp)).1
          = candidate xp basis m
        ∧ (∀ m2 ≤ n,
            weight ((List.range' 1 n).foldl (minStep xp basis) (xp, weight xp)).1
              ≤ weight (candidate xp basis m2))
        ∧ (∀ m2 < m,
            weight ((List.range' 1 n).foldl (minStep xp basis) (xp, weight xp)).1
              < weight (candidate xp basis m2)) := by
  induction n with
  | zero =>
    simp only [List.range'_zero, List.foldl_nil]
    refine ⟨by simp, 0, le_rfl, (candidate_zero xp basis).symm, ?_, ?_⟩
    · intro m2 hm2
      have hm0 : m2 = 0 := Nat.le_zero.mp hm2
      subst hm0
      rw [candidate_zero]
    · intro m2 hm2
      omega
  | succ n ih =>
    rw [List.range'_1_concat, List.foldl_append, List.foldl_cons, List.foldl_nil]
    obtain ⟨hw, m, hm_le, hFm, hmin, hfirst⟩ := ih
    have h1n : 1 + n = n + 1 := Nat.add_comm 1 n
    by_cases hlt : weight (candidate xp basis (1 + n))
        < ((List.range' 1 n).foldl (minStep xp basis) (xp, weight xp)).2
    · rw [minStep_pos xp basis _ _ hlt]
      refine ⟨rfl, 1 + n, by omega, rfl, ?_, ?_⟩
      · intro m2 hm2
        rcases Nat.lt_or_ge m2 (n + 1) with hm2n | hm2n
        · have hm2n2 : m2 ≤ n := by omega
          calc weight (candidate xp basis (1 + n))
              ≤ weight ((List.range' 1 n).foldl (minStep xp basis) (xp, weight xp)).1 := by
                rw [← hw]; exact le_of_lt hlt
            _ ≤ weight (candidate xp basis m2) := hmin m2 hm2n2
        · have hm2eq : m2 = 1 + n := by omega
          subst hm2eq
          exact le_rfl
      · intro m2 hm2
        have hm2n : m2 ≤ n := by omega
        calc weight (candidate xp basis (1 + n))
            < ((List.range' 1 n).foldl (minStep xp basis) (xp, weight xp)).2 := hlt
          _ = weight ((List.range' 1 n).foldl (minStep xp basis) (xp, weight xp)).1 := hw
          _ ≤ weight (candidate xp basis m2) := hmin m2 hm2n
    · rw [minStep_neg xp basis _ _ hlt]
      refine ⟨hw, m, by omega, hFm, ?_, hfirst⟩
      intro m2 hm2
      rcases Nat.lt_or_ge m2 (n + 1) with hm2n | hm2n
      · exact hmin m2 (by omega)
      · have hm2eq : m2 = 1 + n := by omega
        subst hm2eq
        rw [← hw]
        omega

theorem minSearch_spec (xp : List GF2) (basis : List (List GF2)) :
    ∃ m ≤ (jsShiftBound basis.length - 1).toNat,
      minSearch xp basis = candidate xp basis m
      ∧ (∀ m2 ≤ (jsShiftBound basis.length - 1).toNat,
          weight (minSearch xp basis) ≤ weight (candidate xp basis m2))
      ∧ (∀ m2 < m, weight (minSearch xp basis) < weight (candidate xp basis m2)) := by
  obtain ⟨hw, m, hm_le, hFm, hmin, hfirst⟩ :=
    minFold_spec xp basis (jsShiftBound basis.length - 1).toNat
  unfold minSearch
  exact ⟨m, hm_le, hFm, fun m2 hm2 => hmin m2 hm2, fun m2 hm2 => hfirst m2 hm2⟩

-- ===================================================================
-- pressList: membership and the indicator-vector correspondence
-- ===================================================================

theorem mem_pressList (ids : List String) (x : List GF2) (s : String) :
    s ∈ pressList ids x
      ↔ ∃ i, i < x.length ∧ x.getD i 0 = 1 ∧ ids.getD i "" = s ∧ s ≠ "" := by
  unfold pressList
  rw [List.mem_filterMap]
  constructor
  · rintro ⟨i, hi, hf⟩
    rw [List.mem_range] at hi
    by_cases h1 : x.getD i 0 = 1
    · rw [if_pos h1] at hf
      by_cases h2 : ids.getD i "" = ""
      · rw [if_pos h2] at hf
        cases hf
      · rw [if_neg h2] at hf
        injection hf with hf2
        exact ⟨i, hi, h1, hf2, hf2 ▸ h2⟩
    · rw [if_neg h1] at hf
      cases hf
  · rintro ⟨i, hi, h1, h2, h3⟩
    refine ⟨i, List.mem_range.mpr hi, ?_⟩
    have h4 : ids.getD i "" ≠ "" := by rw [h2]; exact h3
    rw [if_pos h1, if_neg h4, h2]

theorem pressList_indicator (ids : List String) (x : List GF2)
    (hlen : x.length = ids.length) (hnd : ids.Nodup) (hne : "" ∉ ids)
    (j : Nat) (hj : j < ids.length) :
    (if ids.getD j "" ∈ pressList ids x then (1 : GF2) else 0) = x.getD j 0 := by
  have hjx : j < x.length := by omega
  by_cases hmem : ids.getD j "" ∈ pressList ids x
  · rw [if_pos hmem]
    obtain ⟨i, hix, h1, h2, _⟩ := (mem_pressList ids x _).mp hmem
    have hij : i = j := nodup_getD_inj ids "" hnd i j (by omega) hj h2
    subst hij
    exact h1.symm
  · rw [if_neg hmem]
    rcases GF2.two_cases (x.getD j 0) with h0 | h0
    · exact h0.symm
    · exfalso
      apply hmem
      refine (mem_pressList ids x _).mpr ⟨j, hjx, h0, rfl, ?_⟩
      intro hempty
      exact hne (hempty ▸ getD_mem ids "" j hj)

-- ===================================================================
-- Branch characterizations of computeSolution
-- ===================================================================

theorem computeSolution_empty (nodes : List SNode) (edges : List SEdge)
    (alg : AlgorithmType) (h0 : nodes.length = 0) :
    computeSolution nodes edges alg = ⟨false, [], "No nodes to solve."⟩ := by
  unfold computeSolution
  rw [if_pos h0]

theorem computeSolution_incons (nodes : List SNode) (edges : List SEdge)
    (alg : AlgorithmType) (h0 : nodes.length ≠ 0)
    (h : inconsistentB (elimState nodes edges).M nodes.length
      (elimState nodes edges).rank = true) :
    computeSolution nodes edges alg = ⟨false, [], "Failed: No solution exists."⟩ := by
  unfold computeSolution
  rw [if_neg h0, if_pos h]

theorem computeSolution_unique (nodes : List SNode) (edges : List SEdge)
    (alg : AlgorithmType) (h0 : nodes.length ≠ 0)
    (h : inconsistentB (elimState nodes edges).M nodes.length
      (elimState nodes edges).rank = false)
    (hfree : (freeColsOf nodes edges).length = 0) :
    computeSolution nodes edges alg
      = ⟨true, pressList (nodes.map SNode.id) (xpOf nodes edges),
          "Success: Unique solution found."⟩ := by
  unfold computeSolution
  rw [if_neg h0, if_neg (by rw [h]; exact Bool.false_ne_true), if_pos hfree]

theorem computeSolution_arbitrary (nodes : List SNode) (edges : List SEdge)
    (h0 : nodes.length ≠ 0)
    (h : inconsistentB (elimState nodes edges).M nodes.length
      (elimState nodes edges).rank = false)
    (hfree : (freeColsOf nodes edges).length ≠ 0) :
    computeSolution nodes edges AlgorithmType.any
      = ⟨true, pressList (nodes.map SNode.id) (xpOf nodes edges),
          "Success: Arbitrary solution found."⟩ := by
  unfold computeSolution
  rw [if_neg h0, if_neg (by rw [h]; exact Bool.false_ne_true), if_neg hfree, if_pos rfl]

theorem computeSolution_minweight (nodes : List SNode) (edges : List SEdge)
    (h0 : nodes.length ≠ 0)
    (h : inconsistentB (elimState nodes edges).M nodes.length
      (elimState nodes edges).rank = false)
    (hfree : (freeColsOf nodes edges).length ≠ 0) :
    computeSolution nodes edges AlgorithmType.minWeight
      = ⟨true, pressList (nodes.map SNode.id) (bestOf nodes edges),
          "Success: Min-Move solution found."⟩ := by
  unfold computeSolution
  rw [if_neg h0, if_neg (by rw [h]; exact Bool.false_ne_true), if_neg hfree,
    if_neg (by intro hcc; cases hcc)]

-- ===================================================================
-- The forward elimination computes the same rank as Gauss-Jordan
-- ===================================================================

theorem findPivotAux_congr (M1 M2 : Mat) (j p fuel : Nat)
    (h : ∀ q, p ≤ q → q < p + fuel → M1 q j = M2 q j) :
    findPivotAux M1 j p fuel = findPivotAux M2 j p fuel := by
  induction fuel generalizing p with
  | zero => rfl
  | succ fuel ih =>
    simp only [findPivotAux]
    rw [h p le_rfl (by omega)]
    by_cases h0 : M2 p j = 0
    · rw [if_pos h0, if_pos h0]
      exact ih (p + 1) (fun q hq1 hq2 => h q (by omega) (by omega))
    · rw [if_neg h0, if_neg h0]

theorem findPivot_congr (M1 M2 : Mat) (N j p : Nat)
    (h : ∀ q, p ≤ q → q < N → M1 q j = M2 q j) :
    findPivot M1 N j p = findPivot M2 N j p := by
  unfold findPivot
  exact findPivotAux_congr M1 M2 j p (N - p) (fun q hq1 hq2 => h q hq1 (by omega))

theorem foldl_pair {α β : Type} (f : α → Nat → α) (g : β → Nat → β) (l : List Nat)
    (a : α) (b : β) :
    l.foldl (fun p j => (f p.1 j, g p.2 j)) (a, b) = (l.foldl f a, l.foldl g b) := by
  induction l generalizing a b with
  | nil => rfl
  | cons x xs ih => exact ih (f a x) (g b x)

theorem gauss_jordan_sim (nodes : List SNode) (edges : List SEdge) :
    (gaussElim nodes.length (buildA nodes edges)).2 = (elimState nodes edges).rank := by
  have hinv := foldlRangeInv
    (fun p j => (gaussStep nodes.length p.1 j, jordanStep nodes.length p.2 j))
    (fun (_ : Nat) (p : (Mat × Nat) × JState) =>
      p.1.2 = p.2.rank
      ∧ ∀ q, p.2.rank ≤ q → q < nodes.length → ∀ c, c < nodes.length →
          p.1.1 q c = p.2.M q c)
    ((buildA nodes edges, 0), (⟨buildAug nodes edges, 0, []⟩ : JState))
    nodes.length
    ⟨rfl, fun q _ _ c hc => (buildAug_eq_buildA nodes edges q c hc).symm⟩
    ?_
  case refine_2 =>
    rw [foldl_pair (gaussStep nodes.length) (jordanStep nodes.length)
      (List.range nodes.length) (buildA nodes edges, 0)
      (⟨buildAug nodes edges, 0, []⟩ : JState)] at hinv
    exact hinv.1
  intro j st hjN hP
  obtain ⟨⟨G, rg⟩, s⟩ := st
  obtain ⟨hrk, hag⟩ := hP
  simp only at hrk hag ⊢
  subst hrk
  unfold gaussStep jordanStep
  simp only
  by_cases hr : s.rank < nodes.length
  · rw [if_pos hr, if_pos hr]
    have hfp : findPivot G nodes.length j s.rank = findPivot s.M nodes.length j s.rank :=
      findPivot_congr G s.M nodes.length j s.rank (fun q hq1 hq2 => hag q hq1 hq2 j hjN)
    by_cases hpN : findPivot s.M nodes.length j s.rank < nodes.length
    · have hpNG : findPivot G nodes.length j s.rank < nodes.length := by
        rw [hfp]
        exact hpN
      rw [if_pos hpNG, if_pos hpN, hfp]
      have hrp : s.rank ≤ findPivot s.M nodes.length j s.rank :=
        findPivot_ge s.M nodes.length j s.rank
      refine ⟨rfl, ?_⟩
      intro q hq1 hq2 c hc
      have hq1b : s.rank + 1 ≤ q := hq1
      have hag1 : ∀ q2, s.rank ≤ q2 → q2 < nodes.length → ∀ c2, c2 < nodes.length →
          swapRows G s.rank (findPivot s.M nodes.length j s.rank) q2 c2
            = swapRows s.M s.rank (findPivot s.M nodes.length j s.rank) q2 c2 := by
        intro q2 hq2a hq2b c2 hc2
        by_cases he1 : q2 = s.rank
        · subst he1
          rw [congrFun (swapRows_left G s.rank (findPivot s.M nodes.length j s.rank)) c2,
            congrFun (swapRows_left s.M s.rank (findPivot s.M nodes.length j s.rank)) c2]
          exact hag _ hrp hpN c2 hc2
        · by_cases he2 : q2 = findPivot s.M nodes.length j s.rank
          · subst he2
            rw [congrFun (swapRows_right G s.rank (findPivot s.M nodes.length j s.rank)) c2,
              congrFun (swapRows_right s.M s.rank (findPivot s.M nodes.length j s.rank)) c2]
            exact hag s.rank le_rfl hr c2 hc2
          · rw [congrFun (swapRows_other G s.rank _ q2 he1 he2) c2,
              congrFun (swapRows_other s.M s.rank _ q2 he1 he2) c2]
            exact hag q2 hq2a hq2b c2 hc2
      show elimBelow (swapRows G s.rank (findPivot s.M nodes.length j s.rank))
          nodes.length s.rank j q c
        = elimOthers (swapRows s.M s.rank (findPivot s.M nodes.length j s.rank))
            nodes.length s.rank j q c
      have hswj : swapRows G s.rank (findPivot s.M nodes.length j s.rank) q j
          = swapRows s.M s.rank (findPivot s.M nodes.length j s.rank) q j :=
        hag1 q (by omega) hq2 j hjN
      unfold elimBelow elimOthers
      by_cases hsel : swapRows s.M s.rank (findPivot s.M nodes.length j s.rank) q j = 1
          ∧ j ≤ c
      · rw [if_pos ⟨by omega, hq2, by rw [hswj]; exact hsel.1, hsel.2, hc⟩,
          if_pos ⟨hq2, by omega, hsel.1, hsel.2, by omega⟩,
          hag1 q (by omega) hq2 c hc, hag1 s.rank le_rfl hr c hc]
      · rw [if_neg (fun hcc => hsel ⟨by rw [← hswj]; exact hcc.2.2.1, hcc.2.2.2.1⟩),
          if_neg (fun hcc => hsel ⟨hcc.2.2.1, hcc.2.2.2.1⟩)]
        exact hag1 q (by omega) hq2 c hc
    · have hpNG : ¬ findPivot G nodes.length j s.rank < nodes.length := by
        rw [hfp]
        exact hpN
      rw [if_neg hpNG, if_neg hpN]
      exact ⟨rfl, hag⟩
  · rw [if_neg hr, if_neg hr]
    exact ⟨rfl, hag⟩

theorem freeColsOf_length (nodes : List SNode) (edges : List SEdge) :
    (freeColsOf nodes edges).length = nodes.length - (elimState nodes edges).rank := by
  have H := elimState_inv nodes edges
  have hnd := elimState_piv_nodup nodes edges
  have hsub : ∀ p ∈ (elimState nodes edges).piv, p < nodes.length := H.piv_lt
  have h1 : ((List.range nodes.length).filter
      (fun j => (elimState nodes edges).piv.contains j)).length
      = (elimState nodes edges).piv.length := by
    have hndf : ((List.range nodes.length).filter
        (fun j => (elimState nodes edges).piv.contains j)).Nodup :=
      (List.nodup_range _).filter _
    rw [← List.toFinset_card_of_nodup hndf, ← List.toFinset_card_of_nodup hnd]
    congr 1
    apply Finset.ext
    intro a
    rw [List.mem_toFinset, List.mem_toFinset, List.mem_filter, List.mem_range]
    constructor
    · rintro ⟨_, hc⟩
      exact List.elem_iff.mp hc
    · intro ha
      exact ⟨hsub a ha, List.elem_iff.mpr ha⟩
  have hpart : (List.range nodes.length).length
      = ((List.range nodes.length).filter
          (fun j => (elimState nodes edges).piv.contains j)).length
        + ((List.range nodes.length).filter
            (fun j => ! (elimState nodes edges).piv.contains j)).length :=
    List.length_eq_length_filter_add
      (fun j => (elimState nodes edges).piv.contains j)
  rw [List.length_range] at hpart
  have hlen := H.piv_len
  unfold freeColsOf
  omega

-- ===================================================================
-- Inconsistency detected by the check is exactly unsolvability
-- ===================================================================

theorem incons_iff_unsolvable (nodes : List SNode) (edges : List SEdge) :
    inconsistentB (elimState nodes edges).M nodes.length (elimState nodes edges).rank = true
      ↔ ¬ ∃ x : Nat → GF2, Solves nodes edges x := by
  have H := elimState_inv nodes edges
  constructor
  · intro hinc
    rintro ⟨x, hx⟩
    have hsatM : SatAug (elimState nodes edges).M nodes.length x :=
      (H.sat_iff x).mpr ((satAug_buildAug_iff nodes edges x).mpr hx)
    unfold inconsistentB at hinc
    rw [List.any_eq_true] at hinc
    obtain ⟨q, hqmem, hq1⟩ := hinc
    obtain ⟨hq1b, hq2b⟩ := (mem_drop_range_iff _ _ _).mp hqmem
    simp only [decide_eq_true_eq] at hq1
    have hrow := hsatM q hq2b
    have hzero : ∑ j ∈ Finset.range nodes.length,
        (elimState nodes edges).M q j * x j = 0 :=
      Finset.sum_eq_zero (fun j hj => by
        rw [H.tail_zero q hq1b hq2b j (Finset.mem_range.mp hj), zero_mul])
    rw [hzero, hq1] at hrow
    exact absurd hrow (by decide)
  · intro hno
    rcases Bool.eq_false_or_eq_true (inconsistentB (elimState nodes edges).M nodes.length
      (elimState nodes edges).rank) with hb | hb
    · exact hb
    · exact absurd ⟨fun c => (xpOf nodes edges).getD c 0, xp_solves nodes edges hb⟩ hno


-- ===================================================================
-- Entry characterization of the influence matrix (for the invariants claim)
-- ===================================================================

theorem GF2_eq_of_one_iff (a b : GF2) (h : a = 1 ↔ b = 1) : a = b := by
  revert h
  revert a b
  decide

theorem applyEdge_one_iff (idx : String → Option Nat) (e : SEdge) (B : Mat) (i k : Nat) :
    applyEdge idx B e i k = 1
      ↔ (B i k = 1 ∨ ∃ u v, idx e.source = some u ∧ idx e.target = some v
          ∧ ((i = u ∧ k = v) ∨ (i = v ∧ k = u))) := by
  unfold applyEdge
  cases hs : idx e.source with
  | none =>
    simp only
    constructor
    · intro h
      exact Or.inl h
    · rintro (h | ⟨u, v, hu, _, _⟩)
      · exact h
      · cases hu
  | some u =>
    cases ht : idx e.target with
    | none =>
      simp only
      constructor
      · intro h
        exact Or.inl h
      · rintro (h | ⟨u2, v2, _, hv, _⟩)
        · exact h
        · cases hv
    | some v =>
      simp only
      by_cases hpos : (i = u ∧ k = v) ∨ (i = v ∧ k = u)
      · rw [if_pos hpos]
        constructor
        · intro _
          exact Or.inr ⟨u, v, rfl, rfl, hpos⟩
        · intro _
          rfl
      · rw [if_neg hpos]
        constructor
        · intro h
          exact Or.inl h
        · rintro (h | ⟨u2, v2, hu2, hv2, hmatch⟩)
          · exact h
          · injection hu2 with hu3
            injection hv2 with hv3
            subst hu3
            subst hv3
            exact absurd hmatch hpos

theorem foldl_applyEdge_one_iff (idx : String → Option Nat) (edges : List SEdge)
    (B : Mat) (i k : Nat) :
    (edges.foldl (applyEdge idx) B) i k = 1
      ↔ (B i k = 1 ∨ ∃ e ∈ edges, ∃ u v, idx e.source = some u ∧ idx e.target = some v
          ∧ ((i = u ∧ k = v) ∨ (i = v ∧ k = u))) := by
  induction edges generalizing B with
  | nil => simp
  | cons e es ih =>
    rw [List.foldl_cons, ih (applyEdge idx B e)]
    rw [applyEdge_one_iff idx e B i k]
    constructor
    · rintro ((h | hmatch) | ⟨e2, he2, hrest⟩)
      · exact Or.inl h
      · exact Or.inr ⟨e, List.mem_cons_self e es, hmatch⟩
      · exact Or.inr ⟨e2, List.mem_cons_of_mem e he2, hrest⟩
    · rintro (h | ⟨e2, he2, hrest⟩)
      · exact Or.inl (Or.inl h)
      · rcases List.mem_cons.mp he2 with he3 | he3
        · subst he3
          exact Or.inl (Or.inr hrest)
        · exact Or.inr ⟨e2, he3, hrest⟩

theorem idxMap_sound (ids : List String) (s : String) (u : Nat)
    (h : idxMap ids s = some u) : u < ids.length ∧ ids.getD u "" = s := by
  unfold idxMap at h
  have hinv := foldlRangeInv (fun acc i => if ids.getD i "" = s then some i else acc)
    (fun (j : Nat) (acc : Option Nat) =>
      ∀ v, acc = some v → v < ids.length ∧ ids.getD v "" = s)
    none ids.length
    (by intro v hv; cases hv)
    (by
      intro j st hj hst v hv
      dsimp only at hv
      by_cases hc : ids.getD j "" = s
      · rw [if_pos hc] at hv
        cases hv
        exact ⟨hj, hc⟩
      · rw [if_neg hc] at hv
        exact hst v hv)
  exact hinv u h

theorem idxMap_ne_none (ids : List String) (s : String) (u : Nat)
    (hu : u < ids.length) (hs : ids.getD u "" = s) : idxMap ids s ≠ none := by
  unfold idxMap
  have hinv := foldlRangeInv (fun acc i => if ids.getD i "" = s then some i else acc)
    (fun (j : Nat) (acc : Option Nat) => u < j → acc ≠ none)
    none ids.length
    (by intro h; omega)
    (by
      intro j st hj hst hu2 hv
      dsimp only at hv
      by_cases hc : ids.getD j "" = s
      · rw [if_pos hc] at hv
        cases hv
      · rw [if_neg hc] at hv
        rcases Nat.lt_or_ge u j with h2 | h2
        · exact hst h2 hv
        · have : u = j := by omega
          subst this
          exact hc hs)
  exact hinv hu

theorem idxMap_some_iff (ids : List String) (hnd : ids.Nodup) (s : String) (u : Nat) :
    idxMap ids s = some u ↔ (u < ids.length ∧ ids.getD u "" = s) := by
  constructor
  · exact idxMap_sound ids s u
  · rintro ⟨hu, hs⟩
    cases hv : idxMap ids s with
    | none => exact absurd hv (idxMap_ne_none ids s u hu hs)
    | some v =>
      obtain ⟨hv1, hv2⟩ := idxMap_sound ids s v hv
      have : v = u := nodup_getD_inj ids "" hnd v u hv1 hu (by rw [hv2, hs])
      rw [this]

/-- Entries set by some edge stay set: the fold only turns entries to 1. -/
theorem foldl_applyEdge_mono (idx : String → Option Nat) (edges : List SEdge)
    (B : Mat) (i k : Nat) (h : B i k = 1) :
    (edges.foldl (applyEdge idx) B) i k = 1 :=
  (foldl_applyEdge_one_iff idx edges B i k).mpr (Or.inl h)

theorem buildA_diag (nodes : List SNode) (edges : List SEdge) (i : Nat)
    (hi : i < nodes.length) : buildA nodes edges i i = 1 := by
  unfold buildA
  apply foldl_applyEdge_mono
  unfold baseA
  rw [if_pos ⟨hi, rfl⟩]

theorem buildA_one_iff (nodes : List SNode) (edges : List SEdge)
    (hnd : (nodes.map SNode.id).Nodup) (i k : Nat)
    (hi : i < nodes.length) (hk : k < nodes.length) :
    buildA nodes edges i k = 1
      ↔ (i = k
        ∨ ∃ e ∈ edges,
            (e.source = (nodes.map SNode.id).getD i ""
              ∧ e.target = (nodes.map SNode.id).getD k "")
            ∨ (e.source = (nodes.map SNode.id).getD k ""
              ∧ e.target = (nodes.map SNode.id).getD i "")) := by
  have hlen : (nodes.map SNode.id).length = nodes.length := List.length_map _ _
  unfold buildA
  rw [foldl_applyEdge_one_iff]
  constructor
  · rintro (hbase | ⟨e, he, u, v, hu, hv, hmatch⟩)
    · unfold baseA at hbase
      by_cases hik : i < nodes.length ∧ k = i
      · exact Or.inl hik.2.symm
      · rw [if_neg hik] at hbase
        exact absurd hbase (by decide)
    · obtain ⟨hu1, hu2⟩ := idxMap_sound _ _ _ hu
      obtain ⟨hv1, hv2⟩ := idxMap_sound _ _ _ hv
      rcases hmatch with ⟨hiu, hkv⟩ | ⟨hiv, hku⟩
      · subst hiu
        subst hkv
        exact Or.inr ⟨e, he, Or.inl ⟨hu2.symm, hv2.symm⟩⟩
      · subst hiv
        subst hku
        exact Or.inr ⟨e, he, Or.inr ⟨hu2.symm, hv2.symm⟩⟩
  · rintro (hik | ⟨e, he, ⟨hsrc, htgt⟩ | ⟨hsrc, htgt⟩⟩)
    · subst hik
      refine Or.inl ?_
      unfold baseA
      rw [if_pos ⟨hi, rfl⟩]
    · refine Or.inr ⟨e, he, i, k, ?_, ?_, Or.inl ⟨rfl, rfl⟩⟩
      · exact (idxMap_some_iff _ hnd _ _).mpr ⟨by omega, hsrc.symm⟩
      · exact (idxMap_some_iff _ hnd _ _).mpr ⟨by omega, htgt.symm⟩
    · refine Or.inr ⟨e, he, k, i, ?_, ?_, Or.inr ⟨rfl, rfl⟩⟩
      · exact (idxMap_some_iff _ hnd _ _).mpr ⟨by omega, hsrc.symm⟩
      · exact (idxMap_some_iff _ hnd _ _).mpr ⟨by omega, htgt.symm⟩

theorem buildA_symm (nodes : List SNode) (edges : List SEdge) (i k : Nat) :
    buildA nodes edges i k = buildA nodes edges k i := by
  apply GF2_eq_of_one_iff
  unfold buildA
  rw [foldl_applyEdge_one_iff, foldl_applyEdge_one_iff]
  constructor
  · rintro (hbase | ⟨e, he, u, v, hu, hv, hmatch⟩)
    · refine Or.inl ?_
      unfold baseA at hbase ⊢
      by_cases hik : i < nodes.length ∧ k = i
      · rw [if_pos ⟨hik.2 ▸ hik.1, hik.2.symm⟩]
      · rw [if_neg hik] at hbase
        exact absurd hbase (by decide)
    · rcases hmatch with ⟨h1, h2⟩ | ⟨h1, h2⟩
      · exact Or.inr ⟨e, he, u, v, hu, hv, Or.inr ⟨h2, h1⟩⟩
      · exact Or.inr ⟨e, he, u, v, hu, hv, Or.inl ⟨h2, h1⟩⟩
  · rintro (hbase | ⟨e, he, u, v, hu, hv, hmatch⟩)
    · refine Or.inl ?_
      unfold baseA at hbase ⊢
      by_cases hik : k < nodes.length ∧ i = k
      · rw [if_pos ⟨hik.2 ▸ hik.1, hik.2.symm⟩]
      · rw [if_neg hik] at hbase
        exact absurd hbase (by decide)
    · rcases hmatch with ⟨h1, h2⟩ | ⟨h1, h2⟩
      · exact Or.inr ⟨e, he, u, v, hu, hv, Or.inr ⟨h2, h1⟩⟩
      · exact Or.inr ⟨e, he, u, v, hu, hv, Or.inl ⟨h2, h1⟩⟩

theorem applyEdge_noop (idx : String → Option Nat) (B : Mat) (e : SEdge)
    (h : ∀ u v, idx e.source = some u → idx e.target = some v → B u v = 1 ∧ B v u = 1) :
    applyEdge idx B e = B := by
  unfold applyEdge
  cases hs : idx e.source with
  | none => rfl
  | some u =>
    cases ht : idx e.target with
    | none => rfl
    | some v =>
      funext i k
      simp only
      by_cases hpos : (i = u ∧ k = v) ∨ (i = v ∧ k = u)
      · rw [if_pos hpos]
        rcases hpos with ⟨h1, h2⟩ | ⟨h1, h2⟩
        · rw [h1, h2]
          exact ((h u v hs ht).1).symm
        · rw [h1, h2]
          exact ((h u v hs ht).2).symm
      · rw [if_neg hpos]

theorem buildA_append_noop (nodes : List SNode) (edges : List SEdge) (e : SEdge)
    (h : e ∈ edges ∨ e.source = e.target) :
    buildA nodes (edges ++ [e]) = buildA nodes edges := by
  unfold buildA
  rw [List.foldl_append, List.foldl_cons, List.foldl_nil]
  apply applyEdge_noop
  intro u v hu hv
  rcases h with hmem | hself
  · constructor
    · exact (foldl_applyEdge_one_iff _ edges _ u v).mpr
        (Or.inr ⟨e, hmem, u, v, hu, hv, Or.inl ⟨rfl, rfl⟩⟩)
    · exact (foldl_applyEdge_one_iff _ edges _ v u).mpr
        (Or.inr ⟨e, hmem, u, v, hu, hv, Or.inr ⟨rfl, rfl⟩⟩)
  · have huv : u = v := by
      rw [hself] at hu
      rw [hu] at hv
      injection hv
    subst huv
    have huN : u < nodes.length := by
      have := idxMap_lt (nodes.map SNode.id) e.source u hu
      simpa using this
    exact ⟨buildA_diag nodes edges u huN, buildA_diag nodes edges u huN⟩

theorem buildAug_append_noop (nodes : List SNode) (edges : List SEdge) (e : SEdge)
    (h : e ∈ edges ∨ e.source = e.target) :
    buildAug nodes (edges ++ [e]) = buildAug nodes edges := by
  unfold buildAug
  rw [List.foldl_append, List.foldl_cons, List.foldl_nil]
  apply applyEdge_noop
  intro u v hu hv
  have huN : u < nodes.length := by
    have := idxMap_lt (nodes.map SNode.id) e.source u hu
    simpa using this
  have hvN : v < nodes.length := by
    have := idxMap_lt (nodes.map SNode.id) e.target v hv
    simpa using this
  constructor
  · show buildAug nodes edges u v = 1
    rw [buildAug_eq_buildA nodes edges u v hvN]
    rcases h with hmem | hself
    · exact (foldl_applyEdge_one_iff _ edges _ u v).mpr
        (Or.inr ⟨e, hmem, u, v, hu, hv, Or.inl ⟨rfl, rfl⟩⟩)
    · have huv : u = v := by
        rw [hself] at hu
        rw [hu] at hv
        injection hv
      subst huv
      exact buildA_diag nodes edges u huN
  · show buildAug nodes edges v u = 1
    rw [buildAug_eq_buildA nodes edges v u huN]
    rcases h with hmem | hself
    · exact (foldl_applyEdge_one_iff _ edges _ v u).mpr
        (Or.inr ⟨e, hmem, u, v, hu, hv, Or.inr ⟨rfl, rfl⟩⟩)
    · have huv : u = v := by
        rw [hself] at hu
        rw [hu] at hv
        injection hv
      subst huv
      exact buildA_diag nodes edges u huN

-- ===================================================================
-- Every successful solve returns the press list of a solving vector
-- ===================================================================

theorem computeSolution_success (nodes : List SNode) (edges : List SEdge)
    (alg : AlgorithmType)
    (hsol : (computeSolution nodes edges alg).hasSolution = true) :
    ∃ v : List GF2, v.length = nodes.length
      ∧ (computeSolution nodes edges alg).nodesToPress
          = pressList (nodes.map SNode.id) v
      ∧ Solves nodes edges (fun c => v.getD c 0) := by
  by_cases h0 : nodes.length = 0
  · rw [computeSolution_empty nodes edges alg h0] at hsol
    cases hsol
  by_cases hinc : inconsistentB (elimState nodes edges).M nodes.length
      (elimState nodes edges).rank = true
  · rw [computeSolution_incons nodes edges alg h0 hinc] at hsol
    cases hsol
  have hincf : inconsistentB (elimState nodes edges).M nodes.length
      (elimState nodes edges).rank = false := Bool.eq_false_iff.mpr hinc
  by_cases hfree : (freeColsOf nodes edges).length = 0
  · rw [computeSolution_unique nodes edges alg h0 hincf hfree]
    exact ⟨xpOf nodes edges, xpOf_length nodes edges, rfl, xp_solves nodes edges hincf⟩
  · cases alg with
    | any =>
      rw [computeSolution_arbitrary nodes edges h0 hincf hfree]
      exact ⟨xpOf nodes edges, xpOf_length nodes edges, rfl, xp_solves nodes edges hincf⟩
    | minWeight =>
      rw [computeSolution_minweight nodes edges h0 hincf hfree]
      obtain ⟨m, _, hbest, _, _⟩ :=
        minSearch_spec (xpOf nodes edges) (nullBasisOf nodes edges)
      have hcand := candidate_inv nodes edges hincf m
      refine ⟨bestOf nodes edges, ?_, rfl, ?_⟩
      · unfold bestOf
        rw [hbest]
        exact hcand.1
      · unfold bestOf
        rw [hbest]
        exact hcand.2

-- ===================================================================
-- Basis vectors evaluated at free columns
-- ===================================================================

theorem freeColsOf_nodup (nodes : List SNode) (edges : List SEdge) :
    (freeColsOf nodes edges).Nodup :=
  (List.nodup_range _).filter _

theorem basisVector_at_free (nodes : List SNode) (edges : List SEdge) (f f2 : Nat)
    (hf : f ∈ freeColsOf nodes edges) (hf2 : f2 ∈ freeColsOf nodes edges) :
    (basisVector (elimState nodes edges).M nodes.length
        (elimState nodes edges).piv f).getD f2 0
      = if f2 = f then 1 else 0 := by
  obtain ⟨hfN, hfpi⟩ := mem_freeColsOf nodes edges f hf
  obtain ⟨hf2N, hf2pi⟩ := mem_freeColsOf nodes edges f2 hf2
  have hfp : ∀ i < (elimState nodes edges).piv.length,
      (elimState nodes edges).piv.getD i 0 ≠ f := by
    intro i hi hEq
    exact hfpi (hEq ▸ getD_mem_of_lt _ i hi)
  rw [basisVector_getD_simple (elimState nodes edges).M nodes.length
    (elimState nodes edges).piv f (elimState_piv_lt nodes edges)
    (elimState_piv_nodup nodes edges) hfp hfN f2]
  rw [Finset.sum_eq_zero, add_zero]
  intro i hi
  rw [if_neg]
  rintro ⟨hEq, _⟩
  exact hf2pi (hEq ▸ getD_mem_of_lt _ i (Finset.mem_range.mp hi))

-- ===================================================================
-- Claim theorems
-- ===================================================================

/-- C8: for the empty graph (zero nodes), with any edge list and any
algorithm mode, `computeSolution` returns `hasSolution = false`, an empty
press set and the distinct message "No nodes to solve.", rather than a
degenerate solved report. -/
theorem empty_graph_report (edges : List SEdge) (alg : AlgorithmType) :
    computeSolution [] edges alg = ⟨false, [], "No nodes to solve."⟩ :=
  computeSolution_empty [] edges alg rfl

/-- C9: on a consistent system with zero free columns, `computeSolution`
returns the particular solution with message "Success: Unique solution
found." for every algorithm mode; the min-weight search is never entered. -/
theorem unique_solution_mode_independent (nodes : List SNode) (edges : List SEdge)
    (alg : AlgorithmType) (h0 : nodes.length ≠ 0)
    (hcons : inconsistentB (elimState nodes edges).M nodes.length
      (elimState nodes edges).rank = false)
    (hfree : (freeColsOf nodes edges).length = 0) :
    computeSolution nodes edges alg
      = ⟨true, pressList (nodes.map SNode.id) (xpOf nodes edges),
          "Success: Unique solution found."⟩ :=
  computeSolution_unique nodes edges alg h0 hcons hfree

theorem unique_solution_mode_independent_witness :
    (([⟨"a", false⟩] : List SNode).length ≠ 0
      ∧ inconsistentB (elimState [⟨"a", false⟩] []).M
          ([⟨"a", false⟩] : List SNode).length (elimState [⟨"a", false⟩] []).rank = false
      ∧ (freeColsOf [⟨"a", false⟩] []).length = 0)
    ∧ computeSolution [⟨"a", false⟩] [] AlgorithmType.minWeight
        = ⟨true, pressList (([⟨"a", false⟩] : List SNode).map SNode.id)
            (xpOf [⟨"a", false⟩] []), "Success: Unique solution found."⟩ :=
  ⟨⟨by decide, by decide, by decide⟩,
    unique_solution_mode_independent [⟨"a", false⟩] [] AlgorithmType.minWeight
      (by decide) (by decide) (by decide)⟩

/-- C2 counterexample: for a single node that is currently on, the augmented
column entry is 0, so "b[i] = 1 iff node i is on" fails on the code: the code
sets `b[i] = on ? 0 : 1`. -/
theorem target_entry_on_counterexample :
    ¬ ((buildAug [⟨"a", true⟩] [] 0 1 = 1)
      ↔ (([⟨"a", true⟩] : List SNode).getD 0 default).«on» = true) := by
  decide

/-- C2 (amended): in the augmented matrix built by `computeSolution`, the
target entry `b[i]` is 1 exactly when node `i` is currently off
(`b[i] = on ? 0 : 1`), so the computed presses turn every unlit node on. -/
theorem target_entry_iff_off (nodes : List SNode) (edges : List SEdge) (i : Nat)
    (hi : i < nodes.length) :
    buildAug nodes edges i nodes.length = 1
      ↔ (nodes.getD i default).«on» = false := by
  rw [buildAug_colN nodes edges i hi]
  unfold targetVec
  by_cases h : (nodes.getD i default).«on»
  · rw [if_pos h]
    constructor
    · intro h2
      exact absurd h2 (by decide)
    · intro h2
      rw [h2] at h
      cases h
  · rw [if_neg h]
    constructor
    · intro _
      exact Bool.eq_false_iff.mpr h
    · intro _
      rfl

theorem target_entry_iff_off_witness :
    (0 < ([⟨"a", true⟩] : List SNode).length)
    ∧ (buildAug [⟨"a", true⟩] [] 0 1 = 1
        ↔ (([⟨"a", true⟩] : List SNode).getD 0 default).«on» = false) :=
  ⟨by decide, target_entry_iff_off [⟨"a", true⟩] [] 0 (by decide)⟩

/-- C6 counterexample: two nodes joined by one edge, both off, solved in
min-weight mode does not return the empty press set the claim predicts: the
code's target is `b = [1,1]` (goal all-on), and the solver presses the first
node. -/
theorem scenarioB_press_counterexample :
    (computeSolution [⟨"a", false⟩, ⟨"b", false⟩] [⟨"a", "b"⟩]
      AlgorithmType.minWeight).nodesToPress ≠ [] := by
  decide

/-- C6 (amended): for two nodes joined by one edge, both off, in min-weight
mode: `A = [[1,1],[1,1]]`, rank 1, nullity 1, target `b = [1,1]`, particular
solution `[1,0]`, null basis `{[1,1]}`, and the solver returns the press set
{first node} with the min-move message. -/
theorem scenarioB_values :
    buildA [⟨"a", false⟩, ⟨"b", false⟩] [⟨"a", "b"⟩] 0 0 = 1
    ∧ buildA [⟨"a", false⟩, ⟨"b", false⟩] [⟨"a", "b"⟩] 0 1 = 1
    ∧ buildA [⟨"a", false⟩, ⟨"b", false⟩] [⟨"a", "b"⟩] 1 0 = 1
    ∧ buildA [⟨"a", false⟩, ⟨"b", false⟩] [⟨"a", "b"⟩] 1 1 = 1
    ∧ computeMatrixInfo [⟨"a", false⟩, ⟨"b", false⟩] [⟨"a", "b"⟩] = (2, 1)
    ∧ gaussRankOf [⟨"a", false⟩, ⟨"b", false⟩] [⟨"a", "b"⟩] = 1
    ∧ (elimState [⟨"a", false⟩, ⟨"b", false⟩] [⟨"a", "b"⟩]).rank = 1
    ∧ targetVec [⟨"a", false⟩, ⟨"b", false⟩] 0 = 1
    ∧ targetVec [⟨"a", false⟩, ⟨"b", false⟩] 1 = 1
    ∧ xpOf [⟨"a", false⟩, ⟨"b", false⟩] [⟨"a", "b"⟩] = [1, 0]
    ∧ nullBasisOf [⟨"a", false⟩, ⟨"b", false⟩] [⟨"a", "b"⟩] = [[1, 1]]
    ∧ computeSolution [⟨"a", false⟩, ⟨"b", false⟩] [⟨"a", "b"⟩] AlgorithmType.minWeight
        = ⟨true, ["a"], "Success: Min-Move solution found."⟩ := by
  decide

/-- C7: `computeSolution` returns the ordinary record
`{hasSolution := false, nodesToPress := [], message := "Failed: No solution
exists."}` exactly when the post-elimination check finds a row at index ≥ rank
with a 1 in the augmented column, and that check fires exactly when the
system `A·x = b` has no solution. -/
theorem no_solution_report_iff_inconsistent (nodes : List SNode) (edges : List SEdge)
    (alg : AlgorithmType) :
    ((computeSolution nodes edges alg
        = ⟨false, [], "Failed: No solution exists."⟩)
      ↔ inconsistentB (elimState nodes edges).M nodes.length
          (elimState nodes edges).rank = true)
    ∧ (inconsistentB (elimState nodes edges).M nodes.length
        (elimState nodes edges).rank = true
      ↔ ¬ ∃ x : Nat → GF2, Solves nodes edges x) := by
  refine ⟨?_, incons_iff_unsolvable nodes edges⟩
  constructor
  · intro hres
    by_contra hinc
    have hincf : inconsistentB (elimState nodes edges).M nodes.length
        (elimState nodes edges).rank = false := Bool.eq_false_iff.mpr hinc
    by_cases h0 : nodes.length = 0
    · rw [computeSolution_empty nodes edges alg h0] at hres
      have := congrArg Solution.message hres
      exact absurd this (by decide)
    · have hsol : (computeSolution nodes edges alg).hasSolution = true := by
        by_cases hfree : (freeColsOf nodes edges).length = 0
        · rw [computeSolution_unique nodes edges alg h0 hincf hfree]
        · cases alg with
          | any => rw [computeSolution_arbitrary nodes edges h0 hincf hfree]
          | minWeight => rw [computeSolution_minweight nodes edges h0 hincf hfree]
      rw [hres] at hsol
      cases hsol
  · intro hinc
    by_cases h0 : nodes.length = 0
    · exfalso
      unfold inconsistentB at hinc
      rw [h0] at hinc
      simp at hinc
    · exact computeSolution_incons nodes edges alg h0 hinc

/-- C5: the rank computed by `computeMatrixInfo`'s forward elimination plus
the reported nullity equals n; that nullity equals the number of free columns
of `computeSolution`'s Gauss-Jordan elimination on the same influence matrix,
which is the number of null-space basis vectors. -/
theorem rank_nullity_consistency (nodes : List SNode) (edges : List SEdge) :
    gaussRankOf nodes edges + (computeMatrixInfo nodes edges).2 = nodes.length
    ∧ (computeMatrixInfo nodes edges).1 = nodes.length
    ∧ (computeMatrixInfo nodes edges).2 = (freeColsOf nodes edges).length
    ∧ (freeColsOf nodes edges).length = (nullBasisOf nodes edges).length := by
  have hsim := gauss_jordan_sim nodes edges
  have hrankN := (elimState_inv nodes edges).rank_le_N
  have hfree := freeColsOf_length nodes edges
  have hbasis := nullBasisOf_length nodes edges
  unfold gaussRankOf at hsim ⊢
  by_cases h0 : nodes.length = 0
  · have hg0 : (gaussElim nodes.length (buildA nodes edges)).2 = 0 := by omega
    unfold computeMatrixInfo
    rw [if_pos h0]
    refine ⟨by omega, h0.symm, by omega, hbasis.symm⟩
  · unfold computeMatrixInfo
    rw [if_neg h0]
    refine ⟨by omega, rfl, by omega, hbasis.symm⟩

/-- C10: the influence matrix built by both `computeMatrixInfo` and
`computeSolution` has unit diagonal and is symmetric; an off-diagonal entry
is 1 exactly when an edge joins the two nodes; the augmented matrix agrees
with it on the first n columns; and appending a duplicate edge or a
self-loop edge leaves both matrices unchanged. -/
theorem influence_matrix_invariants (nodes : List SNode) (edges : List SEdge)
    (hnd : (nodes.map SNode.id).Nodup) :
    (∀ i < nodes.length, buildA nodes edges i i = 1)
    ∧ (∀ i k, buildA nodes edges i k = buildA nodes edges k i)
    ∧ (∀ i k, i < nodes.length → k < nodes.length →
        (buildA nodes edges i k = 1
          ↔ (i = k ∨ ∃ e ∈ edges,
              (e.source = (nodes.map SNode.id).getD i ""
                ∧ e.target = (nodes.map SNode.id).getD k "")
              ∨ (e.source = (nodes.map SNode.id).getD k ""
                ∧ e.target = (nodes.map SNode.id).getD i ""))))
    ∧ (∀ i k, k < nodes.length → buildAug nodes edges i k = buildA nodes edges i k)
    ∧ (∀ e : SEdge, e ∈ edges ∨ e.source = e.target →
        buildA nodes (edges ++ [e]) = buildA nodes edges
        ∧ buildAug nodes (edges ++ [e]) = buildAug nodes edges) :=
  ⟨fun i hi => buildA_diag nodes edges i hi,
    fun i k => buildA_symm nodes edges i k,
    fun i k hi hk => buildA_one_iff nodes edges hnd i k hi hk,
    fun i k hk => buildAug_eq_buildA nodes edges i k hk,
    fun e he => ⟨buildA_append_noop nodes edges e he, buildAug_append_noop nodes edges e he⟩⟩

theorem influence_matrix_invariants_witness :
    ((([⟨"a", false⟩, ⟨"b", true⟩] : List SNode).map SNode.id).Nodup)
    ∧ ((∀ i < ([⟨"a", false⟩, ⟨"b", true⟩] : List SNode).length,
          buildA [⟨"a", false⟩, ⟨"b", true⟩] [⟨"a", "b"⟩] i i = 1)
      ∧ (∀ i k, buildA [⟨"a", false⟩, ⟨"b", true⟩] [⟨"a", "b"⟩] i k
          = buildA [⟨"a", false⟩, ⟨"b", true⟩] [⟨"a", "b"⟩] k i)
      ∧ (∀ i k, i < ([⟨"a", false⟩, ⟨"b", true⟩] : List SNode).length
          → k < ([⟨"a", false⟩, ⟨"b", true⟩] : List SNode).length →
          (buildA [⟨"a", false⟩, ⟨"b", true⟩] [⟨"a", "b"⟩] i k = 1
            ↔ (i = k ∨ ∃ e ∈ [(⟨"a", "b"⟩ : SEdge)],
                (e.source = (([⟨"a", false⟩, ⟨"b", true⟩] : List SNode).map SNode.id).getD i ""
                  ∧ e.target = (([⟨"a", false⟩, ⟨"b", true⟩] : List SNode).map SNode.id).getD k "")
                ∨ (e.source = (([⟨"a", false⟩, ⟨"b", true⟩] : List SNode).map SNode.id).getD k ""
                  ∧ e.target = (([⟨"a", false⟩, ⟨"b", true⟩] : List SNode).map SNode.id).getD i ""))))
      ∧ (∀ i k, k < ([⟨"a", false⟩, ⟨"b", true⟩] : List SNode).length →
          buildAug [⟨"a", false⟩, ⟨"b", true⟩] [⟨"a", "b"⟩] i k
            = buildA [⟨"a", false⟩, ⟨"b", true⟩] [⟨"a", "b"⟩] i k)
      ∧ (∀ e : SEdge, e ∈ [(⟨"a", "b"⟩ : SEdge)] ∨ e.source = e.target →
          buildA [⟨"a", false⟩, ⟨"b", true⟩] ([(⟨"a", "b"⟩ : SEdge)] ++ [e])
            = buildA [⟨"a", false⟩, ⟨"b", true⟩] [⟨"a", "b"⟩]
          ∧ buildAug [⟨"a", false⟩, ⟨"b", true⟩] ([(⟨"a", "b"⟩ : SEdge)] ++ [e])
            = buildAug [⟨"a", false⟩, ⟨"b", true⟩] [⟨"a", "b"⟩])) :=
  ⟨by decide,
    influence_matrix_invariants [⟨"a", false⟩, ⟨"b", true⟩] [⟨"a", "b"⟩] (by decide)⟩

/-- C1 counterexample: a single off node whose id is the empty string. The
solve succeeds and the unique solution presses that node, but
`filter(Boolean)` drops the empty-string id from `nodesToPress`, so the
indicator vector of `nodesToPress` does not satisfy `A·x = b`. -/
theorem press_vector_empty_id_counterexample :
    (computeSolution [⟨"", false⟩] [] AlgorithmType.any).hasSolution = true
    ∧ ¬ (∑ j ∈ Finset.range 1, buildA [⟨"", false⟩] [] 0 j
          * (if (([⟨"", false⟩] : List SNode).map SNode.id).getD j ""
                ∈ (computeSolution [⟨"", false⟩] [] AlgorithmType.any).nodesToPress
              then (1 : GF2) else 0)
        = targetVec [⟨"", false⟩] 0) := by
  decide

/-- C1 (amended): for every graph whose node ids are pairwise distinct and
nonempty, whenever `computeSolution` reports `hasSolution = true` — in any of
the three success modes — the indicator vector of `nodesToPress` over the
input node order satisfies `A·x = b (mod 2)`, with `A` the independently
rebuilt influence matrix and `b[i] = on[i] ? 0 : 1`. -/
theorem press_vector_solves_system (nodes : List SNode) (edges : List SEdge)
    (alg : AlgorithmType)
    (hnd : (nodes.map SNode.id).Nodup) (hne : "" ∉ nodes.map SNode.id)
    (hsol : (computeSolution nodes edges alg).hasSolution = true) :
    ∀ i < nodes.length,
      ∑ j ∈ Finset.range nodes.length, buildA nodes edges i j
        * (if (nodes.map SNode.id).getD j ""
              ∈ (computeSolution nodes edges alg).nodesToPress
            then (1 : GF2) else 0)
        = targetVec nodes i := by
  obtain ⟨v, hvlen, hvpress, hvsolves⟩ := computeSolution_success nodes edges alg hsol
  intro i hi
  have hkey : ∀ j, j < nodes.length →
      (if (nodes.map SNode.id).getD j ""
          ∈ (computeSolution nodes edges alg).nodesToPress
        then (1 : GF2) else 0) = v.getD j 0 := by
    intro j hj
    rw [hvpress]
    exact pressList_indicator (nodes.map SNode.id) v
      (by rw [hvlen, List.length_map]) hnd hne j (by rw [List.length_map]; exact hj)
  rw [Finset.sum_congr rfl (fun j hj => by rw [hkey j (Finset.mem_range.mp hj)])]
  exact hvsolves i hi

theorem press_vector_solves_system_witness :
    ((([⟨"a", false⟩, ⟨"b", false⟩, ⟨"c", false⟩] : List SNode).map SNode.id).Nodup
      ∧ "" ∉ ([⟨"a", false⟩, ⟨"b", false⟩, ⟨"c", false⟩] : List SNode).map SNode.id
      ∧ (computeSolution [⟨"a", false⟩, ⟨"b", false⟩, ⟨"c", false⟩]
          [⟨"a", "b"⟩, ⟨"b", "c"⟩] AlgorithmType.minWeight).hasSolution = true)
    ∧ ∀ i < ([⟨"a", false⟩, ⟨"b", false⟩, ⟨"c", false⟩] : List SNode).length,
        ∑ j ∈ Finset.range ([⟨"a", false⟩, ⟨"b", false⟩, ⟨"c", false⟩] : List SNode).length,
          buildA [⟨"a", false⟩, ⟨"b", false⟩, ⟨"c", false⟩] [⟨"a", "b"⟩, ⟨"b", "c"⟩] i j
          * (if (([⟨"a", false⟩, ⟨"b", false⟩, ⟨"c", false⟩] : List SNode).map SNode.id).getD j ""
                ∈ (computeSolution [⟨"a", false⟩, ⟨"b", false⟩, ⟨"c", false⟩]
                    [⟨"a", "b"⟩, ⟨"b", "c"⟩] AlgorithmType.minWeight).nodesToPress
              then (1 : GF2) else 0)
          = targetVec [⟨"a", false⟩, ⟨"b", false⟩, ⟨"c", false⟩] i :=
  ⟨⟨by decide, by decide, by decide⟩,
    press_vector_solves_system [⟨"a", false⟩, ⟨"b", false⟩, ⟨"c", false⟩]
      [⟨"a", "b"⟩, ⟨"b", "c"⟩] AlgorithmType.minWeight
      (by decide) (by decide) (by decide)⟩

/-- C3: the promised minimum over all `2^k` candidates is not computed once
the nullity reaches 31, because the source's loop bound `1 << freeCols.length`
is a JavaScript 32-bit signed shift: at `k = 31` it evaluates to `-2^31`, so
`for (let i = 1; i < 1 << k; i++)` runs zero times and the unsearched
particular solution is returned. Concretely: on the 4-node star gadget
(nullity 1, searched correctly) the embedded pipeline yields particular
solution `[1, 1, 1, 0]` of weight 3, null basis `{[1, 1, 1, 1]}`, and the
mask-1 candidate `[0, 0, 0, 1]` of weight 1, which the solver returns as
`["l3"]`; but on 31 disjoint copies of that star (124 nodes, nullity 31) the
bound wraps to `-2^31`, the mask range is empty, and `minSearch` returns the
blockwise particular solution of weight `31 * 3 = 93` even though the
all-ones mask `2^31 - 1` gives a candidate of weight `31 * 1 = 31`. -/
theorem minweight_search_skipped_at_nullity_31 :
    jsShiftBound 31 = -(2 ^ 31)
    ∧ (jsShiftBound 31 - 1).toNat = 0
    ∧ List.range' 1 (jsShiftBound 31 - 1).toNat = []
    ∧ xpOf starNodes starEdges = [1, 1, 1, 0]
    ∧ weight (xpOf starNodes starEdges) = 3
    ∧ nullBasisOf starNodes starEdges = [[1, 1, 1, 1]]
    ∧ candidate (xpOf starNodes starEdges) (nullBasisOf starNodes starEdges) 1
        = [0, 0, 0, 1]
    ∧ weight (candidate (xpOf starNodes starEdges) (nullBasisOf starNodes starEdges) 1)
        = 1
    ∧ computeSolution starNodes starEdges AlgorithmType.minWeight
        = ⟨true, ["l3"], "Success: Min-Move solution found."⟩
    ∧ starXp31.length = 124
    ∧ starBasis31.length = 31
    ∧ minSearch starXp31 starBasis31 = starXp31
    ∧ weight (minSearch starXp31 starBasis31) = 93
    ∧ weight (candidate starXp31 starBasis31 (2 ^ 31 - 1)) = 31 := by
  decide

/-- C4: every null-space basis vector `v` produced by `computeSolution`
satisfies `A · v = 0 (mod 2)`, and the `k` basis vectors (one per free
column) are linearly independent over GF(2). -/
theorem null_basis_valid_and_independent (nodes : List SNode) (edges : List SEdge) :
    (∀ j < (nullBasisOf nodes edges).length,
      ∀ i < nodes.length,
        ∑ c ∈ Finset.range nodes.length, buildA nodes edges i c
          * ((nullBasisOf nodes edges).getD j []).getD c 0 = 0)
    ∧ LinearIndependent GF2
        (fun j : Fin (nullBasisOf nodes edges).length =>
          (fun c => ((nullBasisOf nodes edges).getD j.val []).getD c 0 : Nat → GF2)) := by
  constructor
  · intro j hj
    exact nullBasisOf_getD_hom nodes edges j hj
  · rw [Fintype.linearIndependent_iff]
    intro g hg j
    have hjf : (j : Nat) < (freeColsOf nodes edges).length := by
      have h1 := j.isLt
      have h2 := nullBasisOf_length nodes edges
      omega
    have hfree_mem : (freeColsOf nodes edges).getD (j : Nat) 0 ∈ freeColsOf nodes edges :=
      getD_mem _ 0 _ hjf
    have happ := congrFun hg ((freeColsOf nodes edges).getD (j : Nat) 0)
    rw [Finset.sum_apply] at happ
    have hterm : ∀ j2 : Fin (nullBasisOf nodes edges).length,
        (g j2 • (fun c => ((nullBasisOf nodes edges).getD j2.val []).getD c 0 : Nat → GF2))
            ((freeColsOf nodes edges).getD (j : Nat) 0)
          = if j2 = j then g j2 else 0 := by
      intro j2
      have hj2f : (j2 : Nat) < (freeColsOf nodes edges).length := by
        have h1 := j2.isLt
        have h2 := nullBasisOf_length nodes edges
        omega
      rw [Pi.smul_apply, smul_eq_mul]
      rw [nullBasisOf_getD_eq nodes edges j2 j2.isLt]
      rw [basisVector_at_free nodes edges _ _ (getD_mem _ 0 _ hj2f) hfree_mem]
      by_cases hEq : j2 = j
      · subst hEq
        rw [if_pos rfl, if_pos rfl, mul_one]
      · rw [if_neg ?_, if_neg hEq, mul_zero]
        intro hcc
        have : (j : Nat) = (j2 : Nat) :=
          nodup_getD_inj (freeColsOf nodes edges) 0 (freeColsOf_nodup nodes edges)
            (j : Nat) (j2 : Nat) hjf hj2f hcc
        exact hEq (Fin.ext this.symm)
    rw [Finset.sum_congr rfl (fun j2 _ => hterm j2)] at happ
    rw [Finset.sum_ite_eq' Finset.univ j g, if_pos (Finset.mem_univ j)] at happ
    simpa using happ
